import Mathlib

/-!
Verification of the realtime-console core: the data-channel message framing
and reassembly layer, the event dispatcher (`RealtimeConnection` in
`src/store.ts`), the conversation model (`Conversation` in
`src/components/Conversation.tsx`), and the MCP tool aggregation layer
(`McpManager` in `src/McpServerManager.ts`).

Inbound frames and application events are JSON values.  We embed the JSON
data model as the inductive `Json`: JSON numbers are modelled as integers
(the source manipulates only integral fields: `fragment_index`,
`total_fragments`); this is noted wherever it matters.
-/

/-- The JSON value model.  An application event (`RealtimeServerEvent` in the
source) is an arbitrary JSON value tagged by its `type` field. -/
inductive Json where
  | null : Json
  | bool : Bool → Json
  | num : Int → Json
  | str : String → Json
  | arr : List Json → Json
  | obj : List (String × Json) → Json

mutual

/-- Structural (value) equality on JSON values, used to model JavaScript
`Map` key comparison for primitive keys (SameValueZero on primitives is
value equality). -/
def Json.jeq : Json → Json → Bool
  | .null, .null => true
  | .bool a, .bool b => a == b
  | .num a, .num b => a == b
  | .str a, .str b => a == b
  | .arr a, .arr b => Json.jeqList a b
  | .obj a, .obj b => Json.jeqKV a b
  | _, _ => false

/-- Equality on JSON value lists (for `jeq` on arrays). -/
def Json.jeqList : List Json → List Json → Bool
  | [], [] => true
  | a :: as, b :: bs => Json.jeq a b && Json.jeqList as bs
  | _, _ => false

/-- Equality on key/value lists (for `jeq` on objects). -/
def Json.jeqKV : List (String × Json) → List (String × Json) → Bool
  | [], [] => true
  | (k, a) :: as, (l, b) :: bs => k == l && (Json.jeq a b && Json.jeqKV as bs)
  | _, _ => false

end

mutual

def Json.jeq_iff : ∀ a b : Json, Json.jeq a b = true ↔ a = b
  | .null, .null => by simp [Json.jeq]
  | .bool a, .bool b => by simp [Json.jeq]
  | .num a, .num b => by simp [Json.jeq]
  | .str a, .str b => by simp [Json.jeq]
  | .arr a, .arr b => by
      simp only [Json.jeq]
      rw [Json.jeqList_iff a b]
      constructor
      · intro h; rw [h]
      · intro h; injection h
  | .obj a, .obj b => by
      simp only [Json.jeq]
      rw [Json.jeqKV_iff a b]
      constructor
      · intro h; rw [h]
      · intro h; injection h
  | .null, .bool _ | .null, .num _ | .null, .str _ | .null, .arr _ | .null, .obj _
  | .bool _, .null | .bool _, .num _ | .bool _, .str _ | .bool _, .arr _ | .bool _, .obj _
  | .num _, .null | .num _, .bool _ | .num _, .str _ | .num _, .arr _ | .num _, .obj _
  | .str _, .null | .str _, .bool _ | .str _, .num _ | .str _, .arr _ | .str _, .obj _
  | .arr _, .null | .arr _, .bool _ | .arr _, .num _ | .arr _, .str _ | .arr _, .obj _
  | .obj _, .null | .obj _, .bool _ | .obj _, .num _ | .obj _, .str _ | .obj _, .arr _ => by
      simp [Json.jeq]

def Json.jeqList_iff : ∀ a b : List Json, Json.jeqList a b = true ↔ a = b
  | [], [] => by simp [Json.jeqList]
  | [], _ :: _ => by simp [Json.jeqList]
  | _ :: _, [] => by simp [Json.jeqList]
  | a :: as, b :: bs => by
      simp only [Json.jeqList, Bool.and_eq_true]
      rw [Json.jeq_iff a b, Json.jeqList_iff as bs]
      constructor
      · rintro ⟨h1, h2⟩; rw [h1, h2]
      · intro h; injection h with h1 h2; exact ⟨h1, h2⟩

def Json.jeqKV_iff : ∀ a b : List (String × Json), Json.jeqKV a b = true ↔ a = b
  | [], [] => by simp [Json.jeqKV]
  | [], _ :: _ => by simp [Json.jeqKV]
  | _ :: _, [] => by simp [Json.jeqKV]
  | (k, a) :: as, (l, b) :: bs => by
      simp only [Json.jeqKV, Bool.and_eq_true, beq_iff_eq]
      rw [Json.jeq_iff a b, Json.jeqKV_iff as bs]
      constructor
      · rintro ⟨h1, h2, h3⟩; rw [h1, h2, h3]
      · intro h
        injection h with h1 h2
        injection h1 with h1a h1b
        exact ⟨h1a, h1b, h2⟩

end

instance : DecidableEq Json := fun a b => decidable_of_iff _ (Json.jeq_iff a b)

/-- JavaScript property access `v.k` on a parsed JSON value: `some v` when
the property is present (last occurrence wins, as `JSON.parse` keeps the last
duplicate key), `none` when the property is `undefined` (absent field, or a
non-object receiver).  Access on `null` throws in JS and is handled at each
call site. -/
def Json.getField (j : Json) (k : String) : Option Json :=
  match j with
  | .obj kvs => (kvs.filter (fun p => p.1 = k)).getLast?.map (·.2)
  | _ => none

/-- One decimal digit as a character (`0 ≤ d ≤ 9` in all uses). -/
def decChar : Nat → Char
  | 0 => '0' | 1 => '1' | 2 => '2' | 3 => '3' | 4 => '4'
  | 5 => '5' | 6 => '6' | 7 => '7' | 8 => '8' | _ => '9'

/-- Decimal digit characters of a natural number, most significant first,
with explicit recursion depth (`n < fuel` in all uses). -/
def natCharsAux : Nat → Nat → List Char
  | 0, _ => []
  | fuel + 1, n => if n < 10 then [decChar n] else natCharsAux fuel (n / 10) ++ [decChar (n % 10)]

/-- Decimal digit characters of a natural number, most significant first
(the usual JavaScript number-to-string conversion for naturals). -/
def natChars (n : Nat) : List Char := natCharsAux (n + 1) n

/-- JavaScript string conversion of an integer. -/
def intChars (n : Int) : List Char :=
  if n < 0 then '-' :: natChars n.natAbs else natChars n.natAbs

mutual

/-- `Array.prototype.join(",")` element conversion: `null` (and `undefined`)
convert to the empty string, other values via `String(·)`. -/
def jsElemStr : Json → List Char
  | .null => []
  | .bool true => "true".toList
  | .bool false => "false".toList
  | .num n => intChars n
  | .str s => s.toList
  | .arr xs => jsArrElems xs
  | .obj _ => "[object Object]".toList

/-- Comma-joined element conversions, as in JavaScript `String([...])`. -/
def jsArrElems : List Json → List Char
  | [] => []
  | [x] => jsElemStr x
  | x :: xs => jsElemStr x ++ ',' :: jsArrElems xs

end


/-- JavaScript `String(v)` coercion of a JSON value. -/
def jsStr : Json → List Char
  | .null => "null".toList
  | .bool true => "true".toList
  | .bool false => "false".toList
  | .num n => intChars n
  | .str s => s.toList
  | .arr xs => jsArrElems xs
  | .obj _ => "[object Object]".toList

/-- Coercion applied to a possibly-`undefined` value in string position
(template literals, `atob` argument): `undefined` renders as "undefined". -/
def jsStrOpt : Option Json → List Char
  | none => "undefined".toList
  | some j => jsStr j

/-- Coercion `Array.prototype.join("")` applies to an element slot that may
hold `undefined` (a never-written hole): holes, `undefined` and `null` join
as the empty string. -/
def joinArg : Option Json → String
  | none => ""
  | some .null => ""
  | some j => (jsStr j).asString

/-- The base64 alphabet, as used by `btoa`/`atob`. -/
def b64Chars : List Char :=
  "ABCDEFGHIJKLMNOPQRSTUVWXYZabcdefghijklmnopqrstuvwxyz0123456789+/".toList

/-- Character for a sextet value (`v < 64` in all uses). -/
def b64Char (v : Nat) : Char := b64Chars.getD v 'A'

/-- Sextet value of a base64 character, `none` for a character outside the
alphabet (on which `atob` throws). -/
def b64Index (c : Char) : Option Nat := b64Chars.indexOf? c

/-- Base64 encoding of a byte sequence (the `btoa` output format, with `=`
padding), three bytes to four characters. -/
def b64Encode : List Nat → List Char
  | [] => []
  | [a] => [b64Char (a / 4), b64Char (a % 4 * 16), '=', '=']
  | [a, b] => [b64Char (a / 4), b64Char (a % 4 * 16 + b / 16), b64Char (b % 16 * 4), '=']
  | a :: b :: c :: rest =>
      b64Char (a / 4) :: b64Char (a % 4 * 16 + b / 16) ::
      b64Char (b % 16 * 4 + c / 64) :: b64Char (c % 64) :: b64Encode rest

/-- Base64 decoding to a byte sequence: the model of `atob` (`none` models
the `InvalidCharacterError` it throws on ill-formed input).  A padded group
(`xx==` or `xxx=`) is only legal as the final group. -/
def b64Decode : List Char → Option (List Nat)
  | [] => some []
  | c1 :: c2 :: c3 :: c4 :: rest =>
      if c3 = '=' then
        if rest = [] ∧ c4 = '=' then do
          let n1 ← b64Index c1
          let n2 ← b64Index c2
          pure [n1 * 4 + n2 / 16]
        else none
      else if c4 = '=' then
        if rest = [] then do
          let n1 ← b64Index c1
          let n2 ← b64Index c2
          let n3 ← b64Index c3
          pure [n1 * 4 + n2 / 16, n2 % 16 * 16 + n3 / 4]
        else none
      else do
        let n1 ← b64Index c1
        let n2 ← b64Index c2
        let n3 ← b64Index c3
        let n4 ← b64Index c4
        let bs ← b64Decode rest
        pure ((n1 * 4 + n2 / 16) :: (n2 % 16 * 16 + n3 / 4) :: (n3 % 4 * 64 + n4) :: bs)
  | _ => none

/-- Lowercase hexadecimal digit (for the `\u00xx` escapes `JSON.stringify`
emits for control characters). -/
def hexChar : Nat → Char
  | 0 => '0' | 1 => '1' | 2 => '2' | 3 => '3' | 4 => '4'
  | 5 => '5' | 6 => '6' | 7 => '7' | 8 => '8' | 9 => '9'
  | 10 => 'a' | 11 => 'b' | 12 => 'c' | 13 => 'd' | 14 => 'e' | _ => 'f'

/-- Value of a hexadecimal digit character, as accepted in `\uXXXX`. -/
def hexVal (c : Char) : Option Nat :=
  if c.isDigit then some (c.toNat - 48)
  else if 'a' ≤ c ∧ c ≤ 'f' then some (c.toNat - 87)
  else if 'A' ≤ c ∧ c ≤ 'F' then some (c.toNat - 55)
  else none

/-- `JSON.stringify` escaping of one string character: the two-character
escapes for quote, backslash and the named control characters, `\u00xx` for
the remaining control characters, the character itself otherwise. -/
def escChar (c : Char) : List Char :=
  if c = '"' then ['\\', '"']
  else if c = '\\' then ['\\', '\\']
  else if c = '\x08' then ['\\', 'b']
  else if c = '\x0c' then ['\\', 'f']
  else if c = '\n' then ['\\', 'n']
  else if c = '\r' then ['\\', 'r']
  else if c = '\t' then ['\\', 't']
  else if c.toNat < 32 then
    ['\\', 'u', '0', '0', hexChar (c.toNat / 16), hexChar (c.toNat % 16)]
  else [c]

/-- Escape every character of a string body. -/
def escList : List Char → List Char
  | [] => []
  | c :: cs => escChar c ++ escList cs

/-- A JSON string literal: quoted, escaped body. -/
def escString (s : String) : List Char := '"' :: (escList s.toList ++ ['"'])

mutual

/-- The model of `JSON.stringify` (no added whitespace), producing the
character sequence of the serialized value. -/
def jsonSerialize : Json → List Char
  | .null => "null".toList
  | .bool true => "true".toList
  | .bool false => "false".toList
  | .num n => intChars n
  | .str s => escString s
  | .arr [] => "[]".toList
  | .arr (x :: xs) => '[' :: (jsonSerialize x ++ serItems xs ++ [']'])
  | .obj [] => ['{', '}']
  | .obj (f :: fs) => '{' :: (serField1 f ++ serFields fs ++ ['}'])

/-- The remaining array elements, each preceded by a comma. -/
def serItems : List Json → List Char
  | [] => []
  | y :: ys => ',' :: (jsonSerialize y ++ serItems ys)

/-- One object member: quoted key, colon, value. -/
def serField1 : String × Json → List Char
  | (k, v) => escString k ++ ':' :: jsonSerialize v

/-- The remaining object members, each preceded by a comma. -/
def serFields : List (String × Json) → List Char
  | [] => []
  | f :: fs => ',' :: (serField1 f ++ serFields fs)

end


/-- JSON whitespace. -/
def isWs (c : Char) : Bool := c = ' ' || c = '\t' || c = '\n' || c = '\r'

/-- Drop leading JSON whitespace. -/
def skipWs : List Char → List Char
  | [] => []
  | c :: cs => if isWs c then skipWs cs else c :: cs

/-- Maximal leading run of decimal digits, as digit values. -/
def takeDigits : List Char → List Nat × List Char
  | [] => ([], [])
  | c :: cs =>
      if c.isDigit then
        let p := takeDigits cs
        ((c.toNat - 48) :: p.1, p.2)
      else ([], c :: cs)

/-- Numeric value of a digit-value sequence. -/
def digitsToNat (ds : List Nat) : Nat := ds.foldl (fun a d => a * 10 + d) 0

/-- The single-character string escapes accepted after a backslash. -/
def unescape (e : Char) : Option Char :=
  if e = '"' then some '"'
  else if e = '\\' then some '\\'
  else if e = '/' then some '/'
  else if e = 'b' then some '\x08'
  else if e = 'f' then some '\x0c'
  else if e = 'n' then some '\n'
  else if e = 'r' then some '\r'
  else if e = 't' then some '\t'
  else none

/-- The `null` keyword after its initial character. -/
def kwNull : List Char → Option (Json × List Char)
  | c1 :: c2 :: c3 :: rest =>
      if c1 = 'u' ∧ c2 = 'l' ∧ c3 = 'l' then some (.null, rest) else none
  | _ => none

/-- The `true` keyword after its initial character. -/
def kwTrue : List Char → Option (Json × List Char)
  | c1 :: c2 :: c3 :: rest =>
      if c1 = 'r' ∧ c2 = 'u' ∧ c3 = 'e' then some (.bool true, rest) else none
  | _ => none

/-- The `false` keyword after its initial character. -/
def kwFalse : List Char → Option (Json × List Char)
  | c1 :: c2 :: c3 :: c4 :: rest =>
      if c1 = 'a' ∧ c2 = 'l' ∧ c3 = 's' ∧ c4 = 'e' then some (.bool false, rest) else none
  | _ => none

/-- Wrap a parsed string body as a JSON string value. -/
def strRes : Option (List Char × List Char) → Option (Json × List Char)
  | none => none
  | some (s, rest) => some (.str s.asString, rest)

/-- A number starting with a minus sign, from the digit run that follows. -/
def negRes : List Nat × List Char → Option (Json × List Char)
  | ([], _) => none
  | (ds, rest) => some (.num (-(digitsToNat ds : Int)), rest)

/-- An unsigned number from its digit run. -/
def numRes : List Nat × List Char → Option (Json × List Char)
  | (ds, rest) => some (.num ((digitsToNat ds : Int)), rest)

mutual

/-- Parse a JSON string body after the opening quote, returning the unescaped
characters and the input following the closing quote.  All parsing functions
carry explicit fuel bounding the number of recursive steps; `jsonParse`
supplies fuel ample for its input (see `vcost_le`). -/
def parseStrBody : Nat → List Char → Option (List Char × List Char)
  | 0, _ => none
  | _ + 1, [] => none
  | fuel + 1, c :: cs =>
      if c = '"' then some ([], cs)
      else if c = '\\' then parseEsc fuel cs
      else (parseStrBody fuel cs).map (fun p => (c :: p.1, p.2))

/-- Continuation after a backslash. -/
def parseEsc : Nat → List Char → Option (List Char × List Char)
  | 0, _ => none
  | _ + 1, [] => none
  | fuel + 1, e :: cs2 => parseEsc2 fuel (unescape e) e cs2

/-- Dispatch on the single-character escape lookup. -/
def parseEsc2 : Nat → Option Char → Char → List Char → Option (List Char × List Char)
  | 0, _, _, _ => none
  | fuel + 1, some u, _, cs2 => (parseStrBody fuel cs2).map (fun p => (u :: p.1, p.2))
  | fuel + 1, none, e, cs2 => if e = 'u' then parseHex fuel cs2 else none

/-- A `\uXXXX` escape: four hexadecimal digits. -/
def parseHex : Nat → List Char → Option (List Char × List Char)
  | 0, _ => none
  | fuel + 1, h1 :: h2 :: h3 :: h4 :: cs3 =>
      parseHex2 fuel (hexVal h1) (hexVal h2) (hexVal h3) (hexVal h4) cs3
  | _ + 1, _ => none

/-- Combine the four hexadecimal digit values into one character. -/
def parseHex2 : Nat → Option Nat → Option Nat → Option Nat → Option Nat → List Char →
    Option (List Char × List Char)
  | 0, _, _, _, _, _ => none
  | fuel + 1, some v1, some v2, some v3, some v4, cs3 =>
      (parseStrBody fuel cs3).map
        (fun p => (Char.ofNat (v1 * 4096 + v2 * 256 + v3 * 16 + v4) :: p.1, p.2))
  | _ + 1, _, _, _, _, _ => none

/-- Fueled recursive-descent parser for one JSON value (the model of
`JSON.parse`); JSON numbers restricted to integer syntax (see the module
comment). -/
def parseValue : Nat → List Char → Option (Json × List Char)
  | 0, _ => none
  | fuel + 1, cs => parseValue1 fuel (skipWs cs)

/-- Dispatch on the first significant character of a value. -/
def parseValue1 : Nat → List Char → Option (Json × List Char)
  | 0, _ => none
  | _ + 1, [] => none
  | fuel + 1, c :: cs1 =>
      if c = 'n' then kwNull cs1
      else if c = 't' then kwTrue cs1
      else if c = 'f' then kwFalse cs1
      else if c = '"' then strRes (parseStrBody fuel cs1)
      else if c = '[' then parseArr fuel (skipWs cs1)
      else if c = '{' then parseObj fuel (skipWs cs1)
      else if c = '-' then negRes (takeDigits cs1)
      else if c.isDigit then numRes (takeDigits (c :: cs1))
      else none

/-- An array after `[` and whitespace: empty, or its element list. -/
def parseArr : Nat → List Char → Option (Json × List Char)
  | 0, _ => none
  | _ + 1, [] => none
  | fuel + 1, d :: cs2 =>
      if d = ']' then some (.arr [], cs2)
      else
        match parseItems fuel (d :: cs2) with
        | none => none
        | some (vs, rest) => some (.arr vs, rest)

/-- An object after the opening brace and whitespace: empty, or its members. -/
def parseObj : Nat → List Char → Option (Json × List Char)
  | 0, _ => none
  | _ + 1, [] => none
  | fuel + 1, d :: cs2 =>
      if d = '}' then some (.obj [], cs2)
      else
        match parseFields fuel (d :: cs2) with
        | none => none
        | some (fs, rest) => some (.obj fs, rest)

/-- Parse the elements of a non-empty array, consuming the closing `]`. -/
def parseItems : Nat → List Char → Option (List Json × List Char)
  | 0, _ => none
  | fuel + 1, cs => itemsCont1 fuel (parseValue fuel cs)

/-- Continuation after one array element. -/
def itemsCont1 : Nat → Option (Json × List Char) → Option (List Json × List Char)
  | 0, _ => none
  | _ + 1, none => none
  | fuel + 1, some (v, r) => itemsCont2 fuel v (skipWs r)

/-- After an element: a comma continues the list, `]` closes it. -/
def itemsCont2 : Nat → Json → List Char → Option (List Json × List Char)
  | 0, _, _ => none
  | _ + 1, _, [] => none
  | fuel + 1, v, d :: r2 =>
      if d = ',' then
        match parseItems fuel r2 with
        | none => none
        | some (vs, r3) => some (v :: vs, r3)
      else if d = ']' then some ([v], r2)
      else none

/-- Parse the members of a non-empty object, consuming the closing brace. -/
def parseFields : Nat → List Char → Option (List (String × Json) × List Char)
  | 0, _ => none
  | fuel + 1, cs => fieldsCont1 fuel (skipWs cs)

/-- A member must start with a quoted key. -/
def fieldsCont1 : Nat → List Char → Option (List (String × Json) × List Char)
  | 0, _ => none
  | _ + 1, [] => none
  | fuel + 1, d :: cs2 =>
      if d = '"' then fieldsCont2 fuel (parseStrBody fuel cs2) else none

/-- Continuation after the key string. -/
def fieldsCont2 : Nat → Option (List Char × List Char) →
    Option (List (String × Json) × List Char)
  | 0, _ => none
  | _ + 1, none => none
  | fuel + 1, some (k, r2) => fieldsCont3 fuel k (skipWs r2)

/-- A colon must separate key and value. -/
def fieldsCont3 : Nat → List Char → List Char → Option (List (String × Json) × List Char)
  | 0, _, _ => none
  | _ + 1, _, [] => none
  | fuel + 1, k, e :: r3 =>
      if e = ':' then fieldsCont4 fuel k (parseValue fuel r3) else none

/-- Continuation after the member value. -/
def fieldsCont4 : Nat → List Char → Option (Json × List Char) →
    Option (List (String × Json) × List Char)
  | 0, _, _ => none
  | _ + 1, _, none => none
  | fuel + 1, k, some (v, r4) => fieldsCont5 fuel k v (skipWs r4)

/-- After a member: a comma continues the object, a closing brace ends it. -/
def fieldsCont5 : Nat → List Char → Json → List Char →
    Option (List (String × Json) × List Char)
  | 0, _, _, _ => none
  | _ + 1, _, _, [] => none
  | fuel + 1, k, v, g :: r5 =>
      if g = ',' then
        match parseFields fuel r5 with
        | none => none
        | some (fs, r6) => some ((k.asString, v) :: fs, r6)
      else if g = '}' then some ([(k.asString, v)], r5)
      else none

end


/-- The model of `JSON.parse`: parse one value, require only whitespace to
follow, throw (`none`) otherwise.  The fuel is ample for any value the
serializer produces (`vcost_le`); fuel is an artifact of the embedding, not
of the JavaScript source. -/
def jsonParse (cs : List Char) : Option Json :=
  match parseValue (9 * cs.length + 9) cs with
  | none => none
  | some (v, r) => if skipWs r = [] then some v else none

/-- A list whose head, if any, is not a decimal digit. -/
def headNotDigit (l : List Char) : Prop :=
  match l with
  | [] => True
  | c :: _ => c.isDigit = false

mutual

/-- Fuel sufficient for `parseValue` on the serialization of a value. -/
def vcost : Json → Nat
  | .null => 2
  | .bool _ => 2
  | .num _ => 2
  | .str s => 3 + 5 * s.toList.length
  | .arr l => 3 + icost l
  | .obj l => 3 + pcost l

/-- Fuel sufficient for `parseItems` on serialized array elements. -/
def icost : List Json → Nat
  | [] => 0
  | x :: xs => 3 + vcost x + icost xs

/-- Fuel sufficient for `parseFields` on serialized object members. -/
def pcost : List (String × Json) → Nat
  | [] => 0
  | (k, v) :: fs => 7 + 5 * k.toList.length + vcost v + pcost fs

end


/-- The input `parseItems` sees for an element list: the serialized elements,
comma-separated, then the closing bracket and the remaining input. -/
def serItemsAll : List Json → List Char → List Char
  | [], rest => ']' :: rest
  | x :: xs, rest => jsonSerialize x ++ (serItems xs ++ ']' :: rest)

/-- The input `parseFields` sees for a member list. -/
def serFieldsAll : List (String × Json) → List Char → List Char
  | [], rest => '}' :: rest
  | f :: fs, rest => serField1 f ++ (serFields fs ++ '}' :: rest)


/-- Lookup in a JavaScript `Map`, modelled as an insertion-ordered
association list (SameValueZero key comparison). -/
def alGet {σ α : Type} [DecidableEq σ] : List (σ × α) → σ → Option α
  | [], _ => none
  | (k, v) :: rest, k2 => if k = k2 then some v else alGet rest k2

/-- `Map.set`: update in place if the key exists, append otherwise. -/
def alSet {σ α : Type} [DecidableEq σ] : List (σ × α) → σ → α → List (σ × α)
  | [], k, v => [(k, v)]
  | (k0, v0) :: rest, k, v =>
      if k0 = k then (k0, v) :: rest else (k0, v0) :: alSet rest k v

/-- `Map.delete`: remove the entry for the key, if present. -/
def alErase {σ α : Type} [DecidableEq σ] : List (σ × α) → σ → List (σ × α)
  | [], _ => []
  | (k0, v0) :: rest, k => if k0 = k then rest else (k0, v0) :: alErase rest k

/-- A Fragment Assembly Record (the value stored in `messageFragments` in
`RealtimeConnection`): the slot array, the `total_fragments` recorded at
creation, and the received counter.  The stored `totalFragments` field is
never read back by the source (the completion check uses the incoming
frame's value); slots hold the strings they will contribute to `join("")`. -/
structure FragRec where
  fragments : List String
  totalFragments : Nat
  receivedFragments : Nat
deriving DecidableEq

/-- The state of a `RealtimeConnection`: the single-handler-per-type
registry, the any-event listener set, and the fragment reassembly map.
Handlers are opaque tokens of type `κ`; their only relevant behavior
(whether they throw on a given event) is supplied separately. -/
structure Conn (κ : Type) where
  eventListeners : List (String × κ)
  anyEventListeners : List κ
  messageFragments : List (Option Json × FragRec)
deriving DecidableEq

/-- The observable outcome of ingesting one frame: the new state, the events
passed to `processEvent` (in order), the handlers invoked (in order), the
error-log entries, and whether an exception escaped to the data-channel
message callback's outer `catch`. -/
structure Ingest (κ : Type) where
  conn : Conn κ
  emitted : List Json
  invoked : List κ
  log : List String
  threw : Bool
deriving DecidableEq

/-- `event.type` as a `Map` key: only a string value can match a registered
type (the listener map is keyed by strings). -/
def eventType (e : Json) : Option String :=
  match e.getField "type" with
  | some (.str t) => some t
  | _ => none

/-- Invoke the any-event listeners in insertion order; a throwing listener
aborts the loop (there is no `try`/`catch` in `processEvent`). -/
def runAny {κ : Type} (behav : κ → Json → Bool) (e : Json) : List κ → List κ × Bool
  | [] => ([], false)
  | h :: hs =>
      if behav h e then ([h], true)
      else
        let p := runAny behav e hs
        (h :: p.1, p.2)

/-- `RealtimeConnection.processEvent`: the typed handler (if registered for
`event.type`) runs first, then every any-event listener; an exception from
any of them propagates (aborting the rest).  `event.type` on `null` throws.
Returns the invoked handlers in order and whether an exception escaped. -/
def processEvent {κ : Type} (behav : κ → Json → Bool) (c : Conn κ) (e : Json) :
    List κ × Bool :=
  if e = Json.null then ([], true)
  else
    match (eventType e).bind (alGet c.eventListeners) with
    | some h =>
        if behav h e then ([h], true)
        else
          let p := runAny behav e c.anyEventListeners
          (h :: p.1, p.2)
    | none => runAny behav e c.anyEventListeners

/-- `fragments[fragmentIndex] = data.data` under JavaScript array-store
semantics for the index value: a non-negative integer writes the slot
(extending the array with holes, which `join` renders empty, when past the
end); any other index value becomes a plain property invisible to `join`. -/
def setSlot (slots : List String) (idx : Option Json) (v : String) : List String :=
  match idx with
  | some (.num i) =>
      if i < 0 then slots
      else if i.toNat < slots.length then slots.set i.toNat v
      else slots ++ List.replicate (i.toNat - slots.length) "" ++ [v]
  | _ => slots

/-- `fragments.join("")` as a character sequence. -/
def joinFrags (slots : List String) : List Char :=
  (slots.map String.toList).flatten

/-- Legacy passthrough: the parsed frame itself is dispatched as the event. -/
def handleLegacy {κ : Type} (behav : κ → Json → Bool) (c : Conn κ) (data : Json) : Ingest κ :=
  let p := processEvent behav c data
  ⟨c, [data], p.1, [], p.2⟩

/-- The `full_message` path: `atob(data.data)` (with JavaScript string
coercion of the field), `JSON.parse`, then dispatch.  A throwing decode,
parse, or handler escapes to the outer catch. -/
def handleFull {κ : Type} (behav : κ → Json → Bool) (c : Conn κ) (data : Json) : Ingest κ :=
  match b64Decode (jsStrOpt (data.getField "data")) with
  | none => ⟨c, [], [], [], true⟩
  | some bytes =>
      match jsonParse (bytes.map Char.ofNat) with
      | none => ⟨c, [], [], [], true⟩
      | some e =>
          let p := processEvent behav c e
          ⟨c, [e], p.1, [], p.2⟩

/-- The shared tail of the `partial_message` path, given the record the
frame is stored into (`rec0`): write the slot, increment the counter, and
when the counter equals the frame's own `total_fragments` value, join,
decode, parse, dispatch, and delete the record.  `atob` sits outside the
inner `try`, so its exception leaves the (already updated) record in place;
a parse or handler exception is caught by the inner catch and the record is
still deleted. -/
def handleFrag {κ : Type} (behav : κ → Json → Bool) (c : Conn κ)
    (mid fidx ftot dataField : Option Json) (rec0 : FragRec) : Ingest κ :=
  let rec1 : FragRec :=
    { rec0 with
        fragments := setSlot rec0.fragments fidx (joinArg dataField),
        receivedFragments := rec0.receivedFragments + 1 }
  let c2 : Conn κ := { c with messageFragments := alSet c.messageFragments mid rec1 }
  if ftot = some (.num (rec1.receivedFragments : Int)) then
    match b64Decode (joinFrags rec1.fragments) with
    | none => ⟨c2, [], [], [], true⟩
    | some bytes =>
        let c3 : Conn κ := { c2 with messageFragments := alErase c2.messageFragments mid }
        match jsonParse (bytes.map Char.ofNat) with
        | none => ⟨c3, [], [], ["Failed to parse reassembled message"], false⟩
        | some e =>
            let p := processEvent behav c2 e
            ⟨c3, [e], p.1, if p.2 then ["Failed to parse reassembled message"] else [], false⟩
  else ⟨c2, [], [], [], false⟩

/-- The `partial_message` path: create the record on first sight of the id
(`new Array(total_fragments).fill("")`, which throws on a negative count
and yields a one-slot array on a non-numeric one), then store the fragment. -/
def handlePartial {κ : Type} (behav : κ → Json → Bool) (c : Conn κ) (data : Json) : Ingest κ :=
  let mid := data.getField "id"
  let fidx := data.getField "fragment_index"
  let ftot := data.getField "total_fragments"
  let dataField := data.getField "data"
  match alGet c.messageFragments mid with
  | some rec0 => handleFrag behav c mid fidx ftot dataField rec0
  | none =>
      match ftot with
      | some (.num t) =>
          if t < 0 then ⟨c, [], [], [], true⟩
          else handleFrag behav c mid fidx ftot dataField ⟨List.replicate t.toNat "", t.toNat, 0⟩
      | _ => handleFrag behav c mid fidx ftot dataField ⟨[""], 1, 0⟩

/-- The data-channel message callback of `RealtimeConnection.setDataChannel`,
after `JSON.parse` of the raw frame: dispatch on the envelope tag
(`data.type` on `null` throws; any other unrecognized shape is legacy
passthrough). -/
def handleParsed {κ : Type} (behav : κ → Json → Bool) (c : Conn κ) (data : Json) : Ingest κ :=
  if data = Json.null then ⟨c, [], [], [], true⟩
  else if data.getField "type" = some (.str "full_message") then handleFull behav c data
  else if data.getField "type" = some (.str "partial_message") then handlePartial behav c data
  else handleLegacy behav c data

/-- The full message callback on a raw frame string: `JSON.parse`, then
`handleParsed`, with the outer `catch` turning any escaped exception into a
"Failed to parse message data" log entry.  No exception reaches the data
channel. -/
def onMessage {κ : Type} (behav : κ → Json → Bool) (c : Conn κ) (raw : String) : Ingest κ :=
  match jsonParse raw.toList with
  | none => ⟨c, [], [], ["Failed to parse message data"], false⟩
  | some data =>
      let r := handleParsed behav c data
      if r.threw then
        { r with log := r.log ++ ["Failed to parse message data"], threw := false }
      else r

/-- Ingest one already-parsed frame into an accumulated outcome; each frame
arrives in its own callback, so a thrown exception is caught per frame. -/
def ingestFrame {κ : Type} (behav : κ → Json → Bool) (acc : Ingest κ) (data : Json) :
    Ingest κ :=
  let r := handleParsed behav acc.conn data
  ⟨r.conn, acc.emitted ++ r.emitted, acc.invoked ++ r.invoked,
    acc.log ++ r.log ++ (if r.threw then ["Failed to parse message data"] else []), false⟩

/-- Ingest a sequence of parsed frames in order. -/
def ingestList {κ : Type} (behav : κ → Json → Bool) (c : Conn κ) (frames : List Json) :
    Ingest κ :=
  frames.foldl (ingestFrame behav) ⟨c, [], [], [], false⟩

/-- `RealtimeConnection.addEventListener`: registers the listener only if
none exists for the type (otherwise it logs a conflict and keeps the
existing one, reported here by the `Bool`), and in both branches returns
the same unsubscribe closure `() => this.eventListeners.delete(type)`. -/
def addEventListener {κ : Type} (c : Conn κ) (type : String) (listener : κ) :
    Conn κ × Bool × (Conn κ → Conn κ) :=
  if (alGet c.eventListeners type).isNone then
    ({ c with eventListeners := c.eventListeners ++ [(type, listener)] }, false,
      fun c2 => { c2 with eventListeners := alErase c2.eventListeners type })
  else
    (c, true, fun c2 => { c2 with eventListeners := alErase c2.eventListeners type })

/-- A content part of a conversation message (`ConversationItemContent`). -/
inductive ConvContent where
  | text : String → ConvContent
  | input_text : String → ConvContent
  | audio : String → ConvContent
  | input_audio : Option String → ConvContent
  | item_reference : String → ConvContent
deriving DecidableEq

/-- A conversation item (`ConversationItem` in `Conversation.tsx`). -/
inductive ConvItem where
  | message : String → String → String → List ConvContent → ConvItem
  | function_call : String → String → String → String → String → ConvItem
  | function_call_output : String → String → String → String → ConvItem
deriving DecidableEq

/-- The `id` of a conversation item (first field of every variant). -/
def ConvItem.itemId : ConvItem → String
  | .message i _ _ _ => i
  | .function_call i _ _ _ _ => i
  | .function_call_output i _ _ _ => i

/-- The Conversation Model: items keyed by id in a `Map`, insertion order
preserved. -/
structure Conversation where
  items : List (String × ConvItem)
deriving DecidableEq

/-- `Conversation.upsertItem`: `this.items.set(item.id, item)`. -/
def upsertItem (c : Conversation) (it : ConvItem) : Conversation :=
  ⟨alSet c.items it.itemId it⟩

/-- `Conversation.addDelta`: append the delta to the first content part of a
message item; every failure case is logged and leaves the state unchanged. -/
def addDelta (c : Conversation) (id : String) (delta : String) :
    Conversation × List String :=
  match alGet c.items id with
  | none => (c, ["Cannot add delta to non-existent item"])
  | some (.function_call _ _ _ _ _) => (c, ["Cannot add delta to non-message item"])
  | some (.function_call_output _ _ _ _) => (c, ["Cannot add delta to non-message item"])
  | some (.message i st role content) =>
      match content with
      | [] => (c, ["Cannot add delta to message with no content"])
      | part :: rest =>
          match part with
          | .text t =>
              (⟨alSet c.items id (.message i st role (.text (t ++ delta) :: rest))⟩, [])
          | .audio tr =>
              (⟨alSet c.items id (.message i st role (.audio (tr ++ delta) :: rest))⟩, [])
          | .input_text t =>
              (⟨alSet c.items id (.message i st role (.input_text (t ++ delta) :: rest))⟩, [])
          | .input_audio _ => (c, ["Cannot add delta to audio content"])
          | .item_reference _ => (c, ["Cannot add delta to item reference content"])

/-- A tool catalog entry; `desc` stands for the payload (description and
input schema), so that same-named tools from different servers are
distinguishable. -/
structure McpTool where
  name : String
  desc : String
deriving DecidableEq

/-- One registered external MCP server connection (`class Server`): its
unique name, the deterministic result its client's `listTools` request
settles with, and the lazily populated cache. -/
structure Server where
  name : String
  fetchTools : Except String (List McpTool)
  cachedTools : Option (List McpTool)

/-- `Server.listTools`: serve from cache, otherwise fetch and cache on
success; a rejection is propagated and nothing is cached. -/
def Server.listTools (s : Server) : Server × Except String (List McpTool) :=
  match s.cachedTools with
  | some ts => (s, .ok ts)
  | none =>
      match s.fetchTools with
      | .ok ts => ({ s with cachedTools := some ts }, .ok ts)
      | .error e => (s, .error e)

/-- `Promise.allSettled` over every server's `listTools` (each request is
issued; caches update; results settle independently). -/
def fetchAll : List Server → List Server × List (Except String (List McpTool))
  | [] => ([], [])
  | s :: rest =>
      let p := s.listTools
      let q := fetchAll rest
      (p.1 :: q.1, p.2 :: q.2)

/-- Insert one tool into the merge accumulator: first-seen name wins, a
later duplicate is dropped with a diagnostic. -/
def insertTool (acc : List McpTool × List String) (t : McpTool) :
    List McpTool × List String :=
  if acc.1.any (fun u => u.name = t.name) then
    (acc.1, acc.2 ++ ["Duplicate tool found: " ++ t.name])
  else (acc.1 ++ [t], acc.2)

/-- Fold one settled result into the merge accumulator: a fulfilled list
contributes its tools in order, a rejected one only a diagnostic. -/
def mergeStep (acc : List McpTool × List String) (r : Except String (List McpTool)) :
    List McpTool × List String :=
  match r with
  | .ok ts => ts.foldl insertTool acc
  | .error _ => (acc.1, acc.2 ++ ["Failed to fetch tools"])

/-- Merge the settled results: fulfilled lists contribute their tools in
order, rejected ones only a diagnostic. -/
def mergeTools (results : List (Except String (List McpTool))) :
    List McpTool × List String :=
  results.foldl mergeStep ([], [])

/-- The manager (`McpManager`): its registered servers in insertion order. -/
structure Mgr where
  servers : List Server

/-- `McpManager.listTools`: fan out to every server, merge with
first-seen-wins by name. -/
def mgrListTools (m : Mgr) : Mgr × List McpTool × List String :=
  let p := fetchAll m.servers
  let q := mergeTools p.2
  (⟨p.1⟩, q.1, q.2)

/-- How a `callTool` invocation resolves. -/
inductive CallOutcome where
  | notFound : CallOutcome
  | fetchErr : String → String → CallOutcome
  | called : String → CallOutcome
  | stale : CallOutcome
deriving DecidableEq

/-- The re-scan loop of `McpManager.callTool`: ask each server's `listTools`
in registration order; a rejection propagates out of `callTool`; the first
server whose list contains the name receives the forwarded call; an 
exhausted loop is the distinct stale-cache failure. -/
def rescan (name : String) : List Server → List Server × CallOutcome
  | [] => ([], .stale)
  | s :: rest =>
      let p := s.listTools
      match p.2 with
      | .error msg => (p.1 :: rest, .fetchErr s.name msg)
      | .ok ts =>
          if ts.any (fun t => t.name = name) then (p.1 :: rest, .called s.name)
          else
            let q := rescan name rest
            (p.1 :: q.1, q.2)

/-- `McpManager.callTool`: resolve against the merged catalog (absent name
fails with the "tool not found" error), then re-scan the servers. -/
def mgrCallTool (m : Mgr) (name : String) : Mgr × CallOutcome :=
  let p := mgrListTools m
  if ¬(p.2.1.any (fun t => t.name = name)) then (p.1, .notFound)
  else
    let q := rescan name p.1.servers
    (⟨q.1⟩, q.2)

/-- The tools the fulfilled results contribute, in settlement order (the
merge input the spec describes; a rejected result contributes nothing). -/
def okTools : List (Except String (List McpTool)) → List McpTool
  | [] => []
  | Except.ok ts :: rest => ts ++ okTools rest
  | Except.error _ :: rest => okTools rest

/-- The spec's merge policy, stated from its words: walk the contributed
tools in order and keep each one whose name has not been seen before. -/
def firstSeen : List McpTool → List String → List McpTool
  | [], _ => []
  | t :: ts, seen =>
      if t.name ∈ seen then firstSeen ts seen
      else t :: firstSeen ts (seen ++ [t.name])

/-- The `partial_message` envelope carrying slice `idx` of an `total`-fragment
transfer, shaped as the receiver reads it. -/
def mkFrame (id : String) (total idx : Nat) (slice : String) : Json :=
  Json.obj [("type", Json.str "partial_message"), ("id", Json.str id),
    ("fragment_index", Json.num (idx : Int)),
    ("total_fragments", Json.num (total : Int)), ("data", Json.str slice)]

/-- The slot array after exactly the fragments with indices in `done`
arrived: slot `j` holds slice `j` when `j ∈ done`, else the fill value. -/
def slotsAfter (slices : List String) (done : List Nat) : List String :=
  (List.range slices.length).map (fun j => if j ∈ done then slices.getD j "" else "")

/-- The Fragment Assembly Record after the fragments in `done` arrived. -/
def recAfter (slices : List String) (done : List Nat) : FragRec :=
  ⟨slotsAfter slices done, slices.length, done.length⟩

theorem b64Index_b64Char (v : Nat) (hv : v < 64) : b64Index (b64Char v) = some v := by
  have h : ∀ w : Fin 64, b64Index (b64Char w.val) = some w.val := by decide
  exact h ⟨v, hv⟩

theorem b64Char_ne_pad (v : Nat) (hv : v < 64) : b64Char v ≠ '=' := by
  have h : ∀ w : Fin 64, b64Char w.val ≠ '=' := by decide
  exact h ⟨v, hv⟩

theorem b64_roundtrip : ∀ bs : List Nat, (∀ b ∈ bs, b < 256) →
    b64Decode (b64Encode bs) = some bs := by
  intro bs
  induction bs using b64Encode.induct with
  | case1 => intro _; simp [b64Encode, b64Decode]
  | case2 a =>
      intro h
      have ha : a < 256 := h a (by simp)
      simp [b64Encode, b64Decode,
        b64Index_b64Char (a / 4) (by omega), b64Index_b64Char (a % 4 * 16) (by omega)]
      omega
  | case3 a b =>
      intro h
      have ha : a < 256 := h a (by simp)
      have hb : b < 256 := h b (by simp)
      simp [b64Encode, b64Decode,
        if_neg (b64Char_ne_pad (b % 16 * 4) (by omega)),
        b64Index_b64Char (a / 4) (by omega), b64Index_b64Char (a % 4 * 16 + b / 16) (by omega),
        b64Index_b64Char (b % 16 * 4) (by omega)]
      omega
  | case4 a b c rest ih =>
      intro h
      have ha : a < 256 := h a (by simp)
      have hb : b < 256 := h b (by simp)
      have hc : c < 256 := h c (by simp)
      have hrest : ∀ x ∈ rest, x < 256 := fun x hx => h x (by simp [hx])
      simp only [b64Encode, b64Decode,
        if_neg (b64Char_ne_pad (b % 16 * 4 + c / 64) (by omega)),
        if_neg (b64Char_ne_pad (c % 64) (by omega)),
        b64Index_b64Char (a / 4) (by omega),
        b64Index_b64Char (a % 4 * 16 + b / 16) (by omega),
        b64Index_b64Char (b % 16 * 4 + c / 64) (by omega),
        b64Index_b64Char (c % 64) (by omega),
        ih hrest]
      simp
      omega

theorem asString_toList (s : String) : s.toList.asString = s := by
  cases s; rfl

theorem hexVal_hexChar (v : Nat) (hv : v < 16) : hexVal (hexChar v) = some v := by
  have h : ∀ w : Fin 16, hexVal (hexChar w.val) = some w.val := by decide
  exact h ⟨v, hv⟩

theorem decChar_isDigit (d : Nat) (hd : d < 10) : (decChar d).isDigit = true := by
  have h : ∀ w : Fin 10, (decChar w.val).isDigit = true := by decide
  exact h ⟨d, hd⟩

theorem decChar_val (d : Nat) (hd : d < 10) : (decChar d).toNat - 48 = d := by
  have h : ∀ w : Fin 10, (decChar w.val).toNat - 48 = w.val := by decide
  exact h ⟨d, hd⟩

theorem skipWs_no (c : Char) (cs : List Char) (h : isWs c = false) :
    skipWs (c :: cs) = c :: cs := by
  simp [skipWs, h]

theorem natCharsAux_irrel : ∀ f1 n, n < f1 → ∀ f2, n < f2 → natCharsAux f1 n = natCharsAux f2 n := by
  intro f1
  induction f1 with
  | zero => intro n h; omega
  | succ g ih =>
      intro n hn f2 hf2
      match f2, hf2 with
      | g2 + 1, _ =>
        rw [natCharsAux, natCharsAux]
        by_cases h : n < 10
        · rw [if_pos h, if_pos h]
        · rw [if_neg h, if_neg h, ih (n / 10) (by omega) g2 (by omega)]

/-- The recursion equation of `natChars`. -/
theorem natChars_eq (n : Nat) :
    natChars n = if n < 10 then [decChar n] else natChars (n / 10) ++ [decChar (n % 10)] := by
  rw [natChars, natCharsAux]
  by_cases h : n < 10
  · rw [if_pos h, if_pos h]
  · rw [if_neg h, if_neg h, natChars,
      natCharsAux_irrel n (n / 10) (by omega) (n / 10 + 1) (by omega)]

theorem natChars_digits (m : Nat) : ∀ c ∈ natChars m, c.isDigit = true := by
  induction m using Nat.strong_induction_on with
  | _ m ih =>
      rw [natChars_eq]
      by_cases h : m < 10
      · rw [if_pos h]
        intro c hc
        rw [List.mem_singleton] at hc
        subst hc
        exact decChar_isDigit m h
      · rw [if_neg h]
        intro c hc
        rw [List.mem_append] at hc
        rcases hc with hc | hc
        · exact ih (m / 10) (by omega) c hc
        · rw [List.mem_singleton] at hc
          subst hc
          exact decChar_isDigit (m % 10) (by omega)

theorem natChars_ne_nil (m : Nat) : natChars m ≠ [] := by
  rw [natChars_eq]
  by_cases h : m < 10
  · rw [if_pos h]; simp
  · rw [if_neg h]; simp

theorem natChars_cons (m : Nat) : ∃ d t, natChars m = d :: t ∧ d.isDigit = true := by
  cases h : natChars m with
  | nil => exact absurd h (natChars_ne_nil m)
  | cons d t =>
      refine ⟨d, t, rfl, natChars_digits m d ?_⟩
      rw [h]; exact List.mem_cons_self d t

theorem foldl_natChars (m : Nat) : ∀ acc : Nat,
    ((natChars m).map (fun c => c.toNat - 48)).foldl (fun a d => a * 10 + d) acc =
      acc * 10 ^ (natChars m).length + m := by
  induction m using Nat.strong_induction_on with
  | _ m ih =>
      intro acc
      rw [natChars_eq]
      by_cases h : m < 10
      · rw [if_pos h]
        simp [decChar_val m h]
      · rw [if_neg h]
        rw [List.map_append, List.foldl_append, ih (m / 10) (by omega) acc]
        simp only [List.map_cons, List.map_nil, List.foldl_cons, List.foldl_nil,
          List.length_append, List.length_cons, List.length_nil]
        rw [decChar_val (m % 10) (by omega)]
        have hm : m / 10 * 10 + m % 10 = m := by omega
        calc (acc * 10 ^ (natChars (m / 10)).length + m / 10) * 10 + m % 10
            = acc * (10 ^ (natChars (m / 10)).length * 10) + (m / 10 * 10 + m % 10) := by ring
          _ = acc * 10 ^ ((natChars (m / 10)).length + 0 + 1) + m := by
              rw [hm, pow_succ]

theorem takeDigits_stop (l : List Char) (h : headNotDigit l) : takeDigits l = ([], l) := by
  cases l with
  | nil => rfl
  | cons c cs =>
      rw [takeDigits]
      unfold headNotDigit at h
      rw [h]
      simp

theorem takeDigits_run (l rest : List Char) (hl : ∀ c ∈ l, c.isDigit = true)
    (hrest : headNotDigit rest) :
    takeDigits (l ++ rest) = (l.map (fun c => c.toNat - 48), rest) := by
  induction l with
  | nil => simpa using takeDigits_stop rest hrest
  | cons c cs ih =>
      rw [List.cons_append, takeDigits, hl c (List.mem_cons_self c cs)]
      simp only [if_true]
      rw [ih (fun x hx => hl x (List.mem_cons_of_mem c hx))]
      simp

theorem takeDigits_natChars (m : Nat) (rest : List Char) (hrest : headNotDigit rest) :
    takeDigits (natChars m ++ rest) = ((natChars m).map (fun c => c.toNat - 48), rest) :=
  takeDigits_run _ _ (natChars_digits m) hrest

theorem digitsToNat_natChars (m : Nat) :
    digitsToNat ((natChars m).map (fun c => c.toNat - 48)) = m := by
  unfold digitsToNat
  rw [foldl_natChars m 0]
  simp

theorem psb_close (f : Nat) (rest : List Char) :
    parseStrBody (f + 1) ('"' :: rest) = some ([], rest) := rfl

theorem psb_esc (f : Nat) (e u : Char) (hu : unescape e = some u) (X : List Char) :
    parseStrBody (f + 3) ('\\' :: e :: X) = (parseStrBody f X).map (fun p => (u :: p.1, p.2)) := by
  show parseEsc (f + 2) (e :: X) = _
  rw [parseEsc, hu]
  rfl

theorem psb_plain (f : Nat) (c : Char) (h1 : ¬c = '"') (h2 : ¬c = '\\') (X : List Char) :
    parseStrBody (f + 1) (c :: X) = (parseStrBody f X).map (fun p => (c :: p.1, p.2)) := by
  rw [parseStrBody, if_neg h1, if_neg h2]

theorem psb_uEsc (f : Nat) (hi lo : Nat) (hhi : hi < 16) (hlo : lo < 16) (X : List Char) :
    parseStrBody (f + 5) ('\\' :: 'u' :: '0' :: '0' :: hexChar hi :: hexChar lo :: X) =
      (parseStrBody f X).map (fun p => (Char.ofNat (hi * 16 + lo) :: p.1, p.2)) := by
  show parseEsc (f + 4) ('u' :: '0' :: '0' :: hexChar hi :: hexChar lo :: X) = _
  rw [parseEsc, (by decide : unescape 'u' = none), parseEsc2, if_pos rfl, parseHex,
    (by decide : hexVal '0' = some 0), hexVal_hexChar hi hhi, hexVal_hexChar lo hlo, parseHex2]
  norm_num

theorem parseStrBody_rt : ∀ (cs rest : List Char) (fuel : Nat),
    5 * cs.length + 1 ≤ fuel →
    parseStrBody fuel (escList cs ++ '"' :: rest) = some (cs, rest) := by
  intro cs
  induction cs with
  | nil =>
      intro rest fuel hf
      match fuel, hf with
      | f + 1, _ => rw [escList, List.nil_append, psb_close]
  | cons c cs ih =>
      intro rest fuel hf
      rw [escList, List.append_assoc]
      simp only [List.length_cons] at hf
      by_cases h1 : c = '"'
      · subst h1
        match fuel, hf with
        | f + 3, hf =>
          rw [(by decide : escChar '"' = ['\\', '"'])]
          simp only [List.cons_append, List.nil_append]
          rw [psb_esc f '"' '"' (by decide), ih rest f (by omega)]
          rfl
      · by_cases h2 : c = '\\'
        · subst h2
          match fuel, hf with
          | f + 3, hf =>
            rw [(by decide : escChar '\\' = ['\\', '\\'])]
            simp only [List.cons_append, List.nil_append]
            rw [psb_esc f '\\' '\\' (by decide), ih rest f (by omega)]
            rfl
        · by_cases h3 : c = '\x08'
          · subst h3
            match fuel, hf with
            | f + 3, hf =>
              rw [(by decide : escChar '\x08' = ['\\', 'b'])]
              simp only [List.cons_append, List.nil_append]
              rw [psb_esc f 'b' '\x08' (by decide), ih rest f (by omega)]
              rfl
          · by_cases h4 : c = '\x0c'
            · subst h4
              match fuel, hf with
              | f + 3, hf =>
                rw [(by decide : escChar '\x0c' = ['\\', 'f'])]
                simp only [List.cons_append, List.nil_append]
                rw [psb_esc f 'f' '\x0c' (by decide), ih rest f (by omega)]
                rfl
            · by_cases h5 : c = '\n'
              · subst h5
                match fuel, hf with
                | f + 3, hf =>
                  rw [(by decide : escChar '\n' = ['\\', 'n'])]
                  simp only [List.cons_append, List.nil_append]
                  rw [psb_esc f 'n' '\n' (by decide), ih rest f (by omega)]
                  rfl
              · by_cases h6 : c = '\r'
                · subst h6
                  match fuel, hf with
                  | f + 3, hf =>
                    rw [(by decide : escChar '\r' = ['\\', 'r'])]
                    simp only [List.cons_append, List.nil_append]
                    rw [psb_esc f 'r' '\r' (by decide), ih rest f (by omega)]
                    rfl
                · by_cases h7 : c = '\t'
                  · subst h7
                    match fuel, hf with
                    | f + 3, hf =>
                      rw [(by decide : escChar '\t' = ['\\', 't'])]
                      simp only [List.cons_append, List.nil_append]
                      rw [psb_esc f 't' '\t' (by decide), ih rest f (by omega)]
                      rfl
                  · by_cases h8 : c.toNat < 32
                    · have hesc : escChar c =
                          ['\\', 'u', '0', '0', hexChar (c.toNat / 16), hexChar (c.toNat % 16)] := by
                        simp [escChar, h1, h2, h3, h4, h5, h6, h7, h8]
                      match fuel, hf with
                      | f + 5, hf =>
                        rw [hesc]
                        simp only [List.cons_append, List.nil_append]
                        rw [psb_uEsc f (c.toNat / 16) (c.toNat % 16) (by omega) (by omega),
                          ih rest f (by omega)]
                        have harith : c.toNat / 16 * 16 + c.toNat % 16 = c.toNat := by omega
                        rw [harith, Char.ofNat_toNat]
                        rfl
                    · have hesc : escChar c = [c] := by
                        simp [escChar, h1, h2, h3, h4, h5, h6, h7, h8]
                      match fuel, hf with
                      | f + 1, hf =>
                        rw [hesc]
                        simp only [List.cons_append, List.nil_append]
                        rw [psb_plain f c h1 h2, ih rest f (by omega)]
                        rfl

theorem digit_facts (c : Char) (h : c.isDigit = true) :
    isWs c = false ∧ c ≠ ']' ∧ c ≠ '}' ∧ c ≠ ',' := by
  refine ⟨?_, ?_, ?_, ?_⟩
  · unfold isWs
    by_cases h1 : c = ' '
    · subst h1; exact absurd h (by decide)
    · by_cases h2 : c = '\t'
      · subst h2; exact absurd h (by decide)
      · by_cases h3 : c = '\n'
        · subst h3; exact absurd h (by decide)
        · by_cases h4 : c = '\r'
          · subst h4; exact absurd h (by decide)
          · simp [h1, h2, h3, h4]
  · rintro rfl; exact absurd h (by decide)
  · rintro rfl; exact absurd h (by decide)
  · rintro rfl; exact absurd h (by decide)

/-- Every serialized value starts with a significant character that closes
no bracket and separates no list. -/
theorem serHead (j : Json) : ∃ c t, jsonSerialize j = c :: t ∧ isWs c = false ∧
    c ≠ ']' ∧ c ≠ '}' ∧ c ≠ ',' := by
  cases j with
  | null => exact ⟨'n', ['u', 'l', 'l'], by decide, by decide, by decide, by decide, by decide⟩
  | bool b =>
      cases b with
      | true => exact ⟨'t', ['r', 'u', 'e'], by decide, by decide, by decide, by decide, by decide⟩
      | false =>
          exact ⟨'f', ['a', 'l', 's', 'e'], by decide, by decide, by decide, by decide, by decide⟩
  | num n =>
      show ∃ c t, intChars n = c :: t ∧ _
      rw [intChars]
      by_cases hn : n < 0
      · rw [if_pos hn]
        exact ⟨'-', natChars n.natAbs, rfl, by decide, by decide, by decide, by decide⟩
      · rw [if_neg hn]
        obtain ⟨d, t, hdt, hdig⟩ := natChars_cons n.natAbs
        obtain ⟨hw, hc1, hc2, hc3⟩ := digit_facts d hdig
        exact ⟨d, t, hdt, hw, hc1, hc2, hc3⟩
  | str s =>
      exact ⟨'"', escList s.toList ++ ['"'], rfl, by decide, by decide, by decide, by decide⟩
  | arr l =>
      cases l with
      | nil => exact ⟨'[', [']'], by decide, by decide, by decide, by decide, by decide⟩
      | cons x xs =>
          exact ⟨'[', jsonSerialize x ++ serItems xs ++ [']'], rfl,
            by decide, by decide, by decide, by decide⟩
  | obj l =>
      cases l with
      | nil => exact ⟨'{', ['}'], by decide, by decide, by decide, by decide, by decide⟩
      | cons f fs =>
          exact ⟨'{', serField1 f ++ serFields fs ++ ['}'], rfl,
            by decide, by decide, by decide, by decide⟩

theorem pv1_digit (f : Nat) (c : Char) (cs1 : List Char) (h : c.isDigit = true) :
    parseValue1 (f + 1) (c :: cs1) = numRes (takeDigits (c :: cs1)) := by
  have hn : ¬c = 'n' := by rintro rfl; exact absurd h (by decide)
  have ht : ¬c = 't' := by rintro rfl; exact absurd h (by decide)
  have hfa : ¬c = 'f' := by rintro rfl; exact absurd h (by decide)
  have hq : ¬c = '"' := by rintro rfl; exact absurd h (by decide)
  have hlb : ¬c = '[' := by rintro rfl; exact absurd h (by decide)
  have hob : ¬c = '{' := by rintro rfl; exact absurd h (by decide)
  have hmi : ¬c = '-' := by rintro rfl; exact absurd h (by decide)
  rw [parseValue1, if_neg hn, if_neg ht, if_neg hfa, if_neg hq, if_neg hlb, if_neg hob,
    if_neg hmi, if_pos h]

mutual

theorem rt_value : ∀ (j : Json) (rest : List Char) (fuel : Nat), vcost j ≤ fuel →
    headNotDigit rest → parseValue fuel (jsonSerialize j ++ rest) = some (j, rest)
  | .null, rest, fuel, hf, _ => by
      obtain ⟨f, rfl⟩ : ∃ f, fuel = f + 2 := ⟨fuel - 2, by simp only [vcost] at hf; omega⟩
      show parseValue1 (f + 1) (skipWs ('n' :: 'u' :: 'l' :: 'l' :: rest)) = _
      rw [skipWs_no _ _ (by decide)]
      rfl
  | .bool true, rest, fuel, hf, _ => by
      obtain ⟨f, rfl⟩ : ∃ f, fuel = f + 2 := ⟨fuel - 2, by simp only [vcost] at hf; omega⟩
      show parseValue1 (f + 1) (skipWs ('t' :: 'r' :: 'u' :: 'e' :: rest)) = _
      rw [skipWs_no _ _ (by decide)]
      rfl
  | .bool false, rest, fuel, hf, _ => by
      obtain ⟨f, rfl⟩ : ∃ f, fuel = f + 2 := ⟨fuel - 2, by simp only [vcost] at hf; omega⟩
      show parseValue1 (f + 1) (skipWs ('f' :: 'a' :: 'l' :: 's' :: 'e' :: rest)) = _
      rw [skipWs_no _ _ (by decide)]
      rfl
  | .num n, rest, fuel, hf, hnd => by
      obtain ⟨f, rfl⟩ : ∃ f, fuel = f + 2 := ⟨fuel - 2, by simp only [vcost] at hf; omega⟩
      show parseValue1 (f + 1) (skipWs (intChars n ++ rest)) = _
      rw [intChars]
      by_cases hneg : n < 0
      · rw [if_pos hneg]
        simp only [List.cons_append]
        rw [skipWs_no _ _ (by decide)]
        show negRes (takeDigits (natChars n.natAbs ++ rest)) = _
        rw [takeDigits_natChars _ _ hnd]
        obtain ⟨d, t, hdt, _⟩ := natChars_cons n.natAbs
        rw [hdt]
        show some (Json.num (-(digitsToNat ((d :: t).map (fun c => c.toNat - 48)) : Int)), rest) =
          some (Json.num n, rest)
        rw [← hdt, digitsToNat_natChars]
        have hcast : -((n.natAbs : Nat) : Int) = n := by omega
        rw [hcast]
      · rw [if_neg hneg]
        obtain ⟨d, t, hdt, hdig⟩ := natChars_cons n.natAbs
        rw [hdt, List.cons_append, skipWs_no _ _ (digit_facts d hdig).1,
          pv1_digit f d _ hdig, ← List.cons_append, ← hdt, takeDigits_natChars _ _ hnd]
        show some (Json.num ((digitsToNat ((natChars n.natAbs).map (fun c => c.toNat - 48)) : Int)),
          rest) = some (Json.num n, rest)
        rw [digitsToNat_natChars]
        have hcast : ((n.natAbs : Nat) : Int) = n := by omega
        rw [hcast]
  | .str s, rest, fuel, hf, _ => by
      obtain ⟨f, rfl⟩ : ∃ f, fuel = f + 2 := ⟨fuel - 2, by simp only [vcost] at hf; omega⟩
      show parseValue1 (f + 1) (skipWs ('"' :: ((escList s.toList ++ ['"']) ++ rest))) = _
      have hsh : (escList s.toList ++ ['"']) ++ rest = escList s.toList ++ '"' :: rest := by
        simp
      rw [hsh, skipWs_no _ _ (by decide)]
      show strRes (parseStrBody f (escList s.toList ++ '"' :: rest)) = _
      rw [parseStrBody_rt _ _ f (by simp only [vcost] at hf; omega)]
      show some (Json.str s.toList.asString, rest) = some (Json.str s, rest)
      rw [asString_toList]
  | .arr [], rest, fuel, hf, _ => by
      obtain ⟨f, rfl⟩ : ∃ f, fuel = f + 3 := ⟨fuel - 3, by simp only [vcost, icost] at hf; omega⟩
      show parseValue1 (f + 2) (skipWs ('[' :: ']' :: rest)) = _
      rw [skipWs_no _ _ (by decide)]
      show parseArr (f + 1) (skipWs (']' :: rest)) = _
      rw [skipWs_no _ _ (by decide)]
      rfl
  | .arr (x :: xs), rest, fuel, hf, _ => by
      obtain ⟨f, rfl⟩ : ∃ f, fuel = f + 3 := ⟨fuel - 3, by simp only [vcost, icost] at hf; omega⟩
      have hass : (jsonSerialize x ++ serItems xs ++ [']']) ++ rest =
          serItemsAll (x :: xs) rest := by
        show _ = jsonSerialize x ++ (serItems xs ++ ']' :: rest)
        simp
      show parseValue1 (f + 2)
        (skipWs ('[' :: ((jsonSerialize x ++ serItems xs ++ [']']) ++ rest))) = _
      rw [hass, skipWs_no _ _ (by decide)]
      show parseArr (f + 1) (skipWs (serItemsAll (x :: xs) rest)) = _
      obtain ⟨c0, t0, hser, hw0, hbr0, _, _⟩ := serHead x
      have hT : serItemsAll (x :: xs) rest = c0 :: (t0 ++ (serItems xs ++ ']' :: rest)) := by
        show jsonSerialize x ++ (serItems xs ++ ']' :: rest) = _
        rw [hser]
        rfl
      rw [hT, skipWs_no _ _ hw0, parseArr, if_neg hbr0, ← hT,
        rt_items (x :: xs) rest f (by simp only [vcost] at hf; omega) (List.cons_ne_nil x xs)]
  | .obj [], rest, fuel, hf, _ => by
      obtain ⟨f, rfl⟩ : ∃ f, fuel = f + 3 := ⟨fuel - 3, by simp only [vcost, pcost] at hf; omega⟩
      show parseValue1 (f + 2) (skipWs ('{' :: '}' :: rest)) = _
      rw [skipWs_no _ _ (by decide)]
      show parseObj (f + 1) (skipWs ('}' :: rest)) = _
      rw [skipWs_no _ _ (by decide)]
      rfl
  | .obj ((k, v) :: fs), rest, fuel, hf, _ => by
      obtain ⟨f, rfl⟩ : ∃ f, fuel = f + 3 := ⟨fuel - 3, by simp only [vcost, pcost] at hf; omega⟩
      have hass : (serField1 (k, v) ++ serFields fs ++ ['}']) ++ rest =
          serFieldsAll ((k, v) :: fs) rest := by
        show _ = serField1 (k, v) ++ (serFields fs ++ '}' :: rest)
        simp
      show parseValue1 (f + 2)
        (skipWs ('{' :: ((serField1 (k, v) ++ serFields fs ++ ['}']) ++ rest))) = _
      rw [hass, skipWs_no _ _ (by decide)]
      show parseObj (f + 1) (skipWs (serFieldsAll ((k, v) :: fs) rest)) = _
      have hT : serFieldsAll ((k, v) :: fs) rest =
          '"' :: ((escList k.toList ++ ['"']) ++
            (':' :: jsonSerialize v ++ (serFields fs ++ '}' :: rest))) := by
        show serField1 (k, v) ++ (serFields fs ++ '}' :: rest) = _
        show (escString k ++ ':' :: jsonSerialize v) ++ (serFields fs ++ '}' :: rest) = _
        simp [escString]
      rw [hT, skipWs_no _ _ (by decide), parseObj, if_neg (by decide), ← hT,
        rt_fields ((k, v) :: fs) rest f (by simp only [vcost] at hf; omega)
          (List.cons_ne_nil (k, v) fs)]

theorem rt_items : ∀ (l : List Json) (rest : List Char) (fuel : Nat),
    icost l ≤ fuel → l ≠ [] → parseItems fuel (serItemsAll l rest) = some (l, rest)
  | [], _, _, _, hne => absurd rfl hne
  | x :: xs, rest, fuel, hf, _ => by
      obtain ⟨g, rfl⟩ : ∃ g, fuel = g + 3 := ⟨fuel - 3, by simp only [icost] at hf; omega⟩
      show itemsCont1 (g + 2)
        (parseValue (g + 2) (jsonSerialize x ++ (serItems xs ++ ']' :: rest))) = _
      have hnd : headNotDigit (serItems xs ++ ']' :: rest) := by
        cases xs with
        | nil => exact (by decide : (']').isDigit = false)
        | cons y ys => exact (by decide : (',').isDigit = false)
      rw [rt_value x _ (g + 2) (by simp only [icost] at hf; omega) hnd]
      show itemsCont2 (g + 1) x (skipWs (serItems xs ++ ']' :: rest)) = _
      cases xs with
      | nil =>
          show itemsCont2 (g + 1) x (skipWs (']' :: rest)) = _
          rw [skipWs_no _ _ (by decide)]
          rfl
      | cons y ys =>
          have hr : serItems (y :: ys) ++ ']' :: rest = ',' :: serItemsAll (y :: ys) rest := by
            show (',' :: (jsonSerialize y ++ serItems ys)) ++ ']' :: rest = _
            show ',' :: ((jsonSerialize y ++ serItems ys) ++ ']' :: rest) = _
            rw [List.append_assoc]
            rfl
          rw [hr, skipWs_no _ _ (by decide), itemsCont2, if_pos rfl,
            rt_items (y :: ys) rest g (by simp only [icost] at hf ⊢; omega)
              (List.cons_ne_nil y ys)]

theorem rt_fields : ∀ (l : List (String × Json)) (rest : List Char) (fuel : Nat),
    pcost l ≤ fuel → l ≠ [] → parseFields fuel (serFieldsAll l rest) = some (l, rest)
  | [], _, _, _, hne => absurd rfl hne
  | (k, v) :: fs, rest, fuel, hf, _ => by
      obtain ⟨g, rfl⟩ : ∃ g, fuel = g + 6 := ⟨fuel - 6, by simp only [pcost] at hf; omega⟩
      have hT : serFieldsAll ((k, v) :: fs) rest =
          '"' :: (escList k.toList ++
            '"' :: (':' :: (jsonSerialize v ++ (serFields fs ++ '}' :: rest)))) := by
        show serField1 (k, v) ++ (serFields fs ++ '}' :: rest) = _
        show (escString k ++ ':' :: jsonSerialize v) ++ (serFields fs ++ '}' :: rest) = _
        simp [escString]
      show fieldsCont1 (g + 5) (skipWs (serFieldsAll ((k, v) :: fs) rest)) = _
      rw [hT, skipWs_no _ _ (by decide), fieldsCont1, if_pos rfl,
        parseStrBody_rt k.toList _ (g + 4) (by simp only [pcost] at hf; omega)]
      show fieldsCont3 (g + 3) k.toList
        (skipWs (':' :: (jsonSerialize v ++ (serFields fs ++ '}' :: rest)))) = _
      rw [skipWs_no _ _ (by decide), fieldsCont3, if_pos rfl]
      have hndv : headNotDigit (serFields fs ++ '}' :: rest) := by
        cases fs with
        | nil => exact (by decide : ('}').isDigit = false)
        | cons f2 fs2 => exact (by decide : (',').isDigit = false)
      rw [rt_value v _ (g + 2) (by simp only [pcost] at hf; omega) hndv]
      show fieldsCont5 (g + 1) k.toList v (skipWs (serFields fs ++ '}' :: rest)) = _
      cases fs with
      | nil =>
          show fieldsCont5 (g + 1) k.toList v (skipWs ('}' :: rest)) = _
          rw [skipWs_no _ _ (by decide)]
          show some ([(k.toList.asString, v)], rest) = _
          rw [asString_toList]
      | cons f2 fs2 =>
          have hr : serFields (f2 :: fs2) ++ '}' :: rest =
              ',' :: serFieldsAll (f2 :: fs2) rest := by
            show (',' :: (serField1 f2 ++ serFields fs2)) ++ '}' :: rest = _
            show ',' :: ((serField1 f2 ++ serFields fs2) ++ '}' :: rest) = _
            rw [List.append_assoc]
            rfl
          rw [hr, skipWs_no _ _ (by decide), fieldsCont5, if_pos rfl,
            rt_fields (f2 :: fs2) rest g (by simp only [pcost] at hf ⊢; omega)
              (List.cons_ne_nil f2 fs2)]
          show some ((k.toList.asString, v) :: f2 :: fs2, rest) = _
          rw [asString_toList]

end

theorem escChar_len (c : Char) : 1 ≤ (escChar c).length := by
  unfold escChar
  split
  · simp
  · split
    · simp
    · split
      · simp
      · split
        · simp
        · split
          · simp
          · split
            · simp
            · split
              · simp
              · split <;> simp

theorem escList_len (cs : List Char) : cs.length ≤ (escList cs).length := by
  induction cs with
  | nil => simp [escList]
  | cons c cs ih =>
      rw [escList, List.length_append]
      have := escChar_len c
      simp only [List.length_cons]
      omega

mutual

theorem vcost_le : ∀ j : Json, vcost j ≤ 9 * (jsonSerialize j).length
  | .null => by simp [vcost, jsonSerialize]
  | .bool true => by simp [vcost, jsonSerialize]
  | .bool false => by simp [vcost, jsonSerialize]
  | .num n => by
      show vcost (.num n) ≤ 9 * (intChars n).length
      rw [vcost, intChars]
      by_cases hn : n < 0
      · rw [if_pos hn]
        simp only [List.length_cons]
        omega
      · rw [if_neg hn]
        obtain ⟨d, t, hdt, _⟩ := natChars_cons n.natAbs
        rw [hdt]
        simp only [List.length_cons]
        omega
  | .str s => by
      show vcost (.str s) ≤ 9 * (escString s).length
      rw [vcost]
      unfold escString
      simp only [List.length_cons, List.length_append, List.length_singleton]
      have := escList_len s.toList
      omega
  | .arr [] => by simp [vcost, icost, jsonSerialize]
  | .arr (x :: xs) => by
      show vcost (.arr (x :: xs)) ≤
        9 * ('[' :: (jsonSerialize x ++ serItems xs ++ [']'])).length
      rw [vcost]
      have h1 := vcost_le x
      have h2 := icost_le xs
      simp only [icost, List.length_cons, List.length_append, List.length_singleton]
      omega
  | .obj [] => by simp [vcost, pcost, jsonSerialize]
  | .obj (f :: fs) => by
      show vcost (.obj (f :: fs)) ≤
        9 * ('{' :: (serField1 f ++ serFields fs ++ ['}'])).length
      rw [vcost]
      match f with
      | (k, v) =>
        have h1 := vcost_le v
        have h2 := pcost_le fs
        have h3 := escList_len k.toList
        simp only [pcost, serField1, escString, List.length_cons, List.length_append,
          List.length_singleton]
        omega

theorem icost_le : ∀ l : List Json, icost l ≤ 9 * (serItems l).length + 6
  | [] => by simp [icost]
  | x :: xs => by
      rw [icost, serItems]
      have h1 := vcost_le x
      have h2 := icost_le xs
      simp only [List.length_cons, List.length_append]
      omega

theorem pcost_le : ∀ l : List (String × Json), pcost l ≤ 9 * (serFields l).length + 6
  | [] => by simp [pcost]
  | (k, v) :: fs => by
      rw [pcost, serFields]
      have h1 := vcost_le v
      have h2 := pcost_le fs
      have h3 := escList_len k.toList
      simp only [serField1, escString, List.length_cons, List.length_append,
        List.length_singleton]
      omega

end

/-- Round trip of the JSON embedding: parsing a serialized value returns
exactly that value. -/
theorem jsonParse_serialize (j : Json) : jsonParse (jsonSerialize j) = some j := by
  unfold jsonParse
  have h := rt_value j [] (9 * (jsonSerialize j).length + 9)
    (by have := vcost_le j; omega) trivial
  rw [List.append_nil] at h
  rw [h]
  rfl

theorem alGet_eq_none {σ α : Type} [DecidableEq σ] (l : List (σ × α)) (k : σ)
    (h : alGet l k = none) : ∀ p ∈ l, p.1 ≠ k := by
  induction l with
  | nil => intro p hp; cases hp
  | cons q rest ih =>
      obtain ⟨k0, v0⟩ := q
      intro p hp
      rw [alGet] at h
      by_cases hk : k0 = k
      · rw [if_pos hk] at h; cases h
      · rw [if_neg hk] at h
        rw [List.mem_cons] at hp
        rcases hp with hp | hp
        · subst hp; exact hk
        · exact ih h p hp

theorem alGet_append_last {σ α : Type} [DecidableEq σ] (l : List (σ × α)) (k : σ) (v : α)
    (h : alGet l k = none) : alGet (l ++ [(k, v)]) k = some v := by
  induction l with
  | nil => simp [alGet]
  | cons q rest ih =>
      obtain ⟨k0, v0⟩ := q
      rw [alGet] at h
      by_cases hk : k0 = k
      · rw [if_pos hk] at h; cases h
      · rw [if_neg hk] at h
        rw [List.cons_append, alGet, if_neg hk]
        exact ih h

theorem alSet_fresh {σ α : Type} [DecidableEq σ] (l : List (σ × α)) (k : σ) (v : α)
    (h : alGet l k = none) : alSet l k v = l ++ [(k, v)] := by
  induction l with
  | nil => rfl
  | cons q rest ih =>
      obtain ⟨k0, v0⟩ := q
      rw [alGet] at h
      by_cases hk : k0 = k
      · rw [if_pos hk] at h; cases h
      · rw [if_neg hk] at h
        rw [alSet, if_neg hk, List.cons_append, ih h]

theorem alSet_append_last {σ α : Type} [DecidableEq σ] (l : List (σ × α)) (k : σ) (v w : α)
    (h : alGet l k = none) : alSet (l ++ [(k, w)]) k v = l ++ [(k, v)] := by
  induction l with
  | nil => simp [alSet]
  | cons q rest ih =>
      obtain ⟨k0, v0⟩ := q
      rw [alGet] at h
      by_cases hk : k0 = k
      · rw [if_pos hk] at h; cases h
      · rw [if_neg hk] at h
        rw [List.cons_append, alSet, if_neg hk, ih h, List.cons_append]

theorem alErase_append_last {σ α : Type} [DecidableEq σ] (l : List (σ × α)) (k : σ) (w : α)
    (h : alGet l k = none) : alErase (l ++ [(k, w)]) k = l := by
  induction l with
  | nil => simp [alErase]
  | cons q rest ih =>
      obtain ⟨k0, v0⟩ := q
      rw [alGet] at h
      by_cases hk : k0 = k
      · rw [if_pos hk] at h; cases h
      · rw [if_neg hk] at h
        rw [List.cons_append, alErase, if_neg hk, ih h]

theorem alGet_alSet_self {σ α : Type} [DecidableEq σ] (l : List (σ × α)) (k : σ) (v : α) :
    alGet (alSet l k v) k = some v := by
  induction l with
  | nil => simp [alSet, alGet]
  | cons q rest ih =>
      obtain ⟨k0, v0⟩ := q
      by_cases hk : k0 = k
      · rw [alSet, if_pos hk, alGet, if_pos hk]
      · rw [alSet, if_neg hk, alGet, if_neg hk]
        exact ih

theorem alSet_alSet {σ α : Type} [DecidableEq σ] (l : List (σ × α)) (k : σ) (v w : α) :
    alSet (alSet l k v) k w = alSet l k w := by
  induction l with
  | nil => simp [alSet]
  | cons q rest ih =>
      obtain ⟨k0, v0⟩ := q
      by_cases hk : k0 = k
      · rw [alSet, if_pos hk, alSet, if_pos hk, alSet, if_pos hk]
      · rw [alSet, if_neg hk, alSet, if_neg hk, alSet, if_neg hk, ih]

theorem alGet_isSome_mem {σ α : Type} [DecidableEq σ] (l : List (σ × α)) (k : σ) (v : α)
    (hg : alGet l k = some v) : k ∈ l.map Prod.fst := by
  induction l with
  | nil => cases hg
  | cons r rs ihr =>
      obtain ⟨k1, v1⟩ := r
      rw [alGet] at hg
      by_cases hk1 : k1 = k
      · subst hk1; simp
      · rw [if_neg hk1] at hg
        simp only [List.map_cons, List.mem_cons]
        exact Or.inr (ihr hg)

theorem alGet_alErase_nodup {σ α : Type} [DecidableEq σ] (l : List (σ × α)) (k : σ)
    (h : (l.map Prod.fst).Nodup) : alGet (alErase l k) k = none := by
  induction l with
  | nil => rfl
  | cons q rest ih =>
      obtain ⟨k0, v0⟩ := q
      rw [List.map_cons, List.nodup_cons] at h
      by_cases hk : k0 = k
      · subst hk
        rw [alErase, if_pos rfl]
        cases hg : alGet rest k0 with
        | none => rfl
        | some v => exact absurd (alGet_isSome_mem rest k0 v hg) h.1
      · rw [alErase, if_neg hk, alGet, if_neg hk]
        exact ih h.2

theorem runAny_subset {κ : Type} (behav : κ → Json → Bool) (e : Json) (l : List κ) :
    ∀ k ∈ (runAny behav e l).1, k ∈ l := by
  induction l with
  | nil => intro k hk; cases hk
  | cons h hs ih =>
      intro k hk
      rw [runAny] at hk
      by_cases hb : behav h e = true
      · rw [if_pos hb] at hk
        rw [List.mem_singleton] at hk
        subst hk
        exact List.mem_cons_self _ _
      · simp only [if_neg hb] at hk
        simp only [List.mem_cons] at hk ⊢
        rcases hk with hk | hk
        · exact Or.inl hk
        · exact Or.inr (ih k hk)

/-- In the fresh case `addEventListener` appends the listener, reports no
conflict, and returns the delete-by-type closure. -/
theorem ael_fresh {κ : Type} (c : Conn κ) (t : String) (l : κ)
    (h : alGet c.eventListeners t = none) :
    addEventListener c t l
      = ({ c with eventListeners := c.eventListeners ++ [(t, l)] }, false,
        fun c2 => { c2 with eventListeners := alErase c2.eventListeners t }) := by
  simp [addEventListener, h]

/-- In the already-taken case `addEventListener` keeps the state, reports the
conflict, and returns the same delete-by-type closure. -/
theorem ael_taken {κ : Type} (c : Conn κ) (t : String) (l v : κ)
    (h : alGet c.eventListeners t = some v) :
    addEventListener c t l
      = (c, true,
        fun c2 => { c2 with eventListeners := alErase c2.eventListeners t }) := by
  simp [addEventListener, h]

/-- **C10** — The function returned by `addEventListener(type, listener)`
deletes whatever handler is currently registered for that type, in the
accepted and in the rejected branch alike; hence invoking the unsubscribe
function returned from a rejected second registration removes the first
caller's handler for that type. -/
theorem c10_unsubscribe_closure {κ : Type} (c : Conn κ) (t : String) (h1 h2 : κ)
    (hfresh : alGet c.eventListeners t = none) :
    (∀ (c' : Conn κ) (t' : String) (l' : κ) (c2 : Conn κ),
      ((addEventListener c' t' l').2.2 c2).eventListeners = alErase c2.eventListeners t') ∧
    (addEventListener (addEventListener c t h1).1 t h2).2.1 = true ∧
    alGet (addEventListener (addEventListener c t h1).1 t h2).1.eventListeners t = some h1 ∧
    ((addEventListener (addEventListener c t h1).1 t h2).2.2
        (addEventListener (addEventListener c t h1).1 t h2).1).eventListeners
      = c.eventListeners ∧
    alGet ((addEventListener (addEventListener c t h1).1 t h2).2.2
        (addEventListener (addEventListener c t h1).1 t h2).1).eventListeners t = none := by
  have hc1 := ael_fresh c t h1 hfresh
  have hget1 : alGet (addEventListener c t h1).1.eventListeners t = some h1 := by
    rw [hc1]; exact alGet_append_last _ _ _ hfresh
  have hr2 := ael_taken (addEventListener c t h1).1 t h2 h1 hget1
  refine ⟨?_, ?_, ?_, ?_, ?_⟩
  · intro c' t' l' c2
    unfold addEventListener
    by_cases hb : (alGet c'.eventListeners t').isNone = true
    · rw [if_pos hb]
    · rw [if_neg hb]
  · rw [hr2]
  · rw [hr2]; exact hget1
  · rw [hr2, hc1]
    exact alErase_append_last _ _ _ hfresh
  · rw [hr2, hc1]
    show alGet (alErase (c.eventListeners ++ [(t, h1)]) t) t = none
    rw [alErase_append_last _ _ _ hfresh]
    exact hfresh

/-- `c10_unsubscribe_closure` at a concrete input: the rejected second
registration still hands back a closure that unregisters the first handler. -/
theorem c10_unsubscribe_closure_witness :
    alGet (([] : List (String × Nat))) "t" = none ∧
    (addEventListener (addEventListener (⟨[], [], []⟩ : Conn Nat) "t" 0).1 "t" 1).2.1 = true ∧
    alGet ((addEventListener (addEventListener (⟨[], [], []⟩ : Conn Nat) "t" 0).1 "t" 1).2.2
        (addEventListener (addEventListener (⟨[], [], []⟩ : Conn Nat) "t" 0).1 "t" 1).1).eventListeners
      "t" = none :=
  ⟨rfl, (c10_unsubscribe_closure ⟨[], [], []⟩ "t" 0 1 rfl).2.1,
    (c10_unsubscribe_closure ⟨[], [], []⟩ "t" 0 1 rfl).2.2.2.2⟩

/-- **C2** — After `subscribe(t, h1)` followed by `subscribe(t, h2)` (for a
type `t` with no prior handler, `h2` neither `h1` nor an any-event listener),
the second call only reports the conflict: the state is unchanged, `h1`
remains the sole registered handler for `t`, and every dispatched event of
type `t` invokes `h1` first and never invokes `h2`. -/
theorem c2_single_owner {κ : Type} (c : Conn κ) (t : String) (h1 h2 : κ)
    (hfresh : alGet c.eventListeners t = none) (hne1 : h2 ≠ h1)
    (hne2 : h2 ∉ c.anyEventListeners) :
    (addEventListener (addEventListener c t h1).1 t h2).2.1 = true ∧
    (addEventListener (addEventListener c t h1).1 t h2).1 = (addEventListener c t h1).1 ∧
    alGet (addEventListener (addEventListener c t h1).1 t h2).1.eventListeners t = some h1 ∧
    ∀ (behav : κ → Json → Bool) (e : Json), eventType e = some t →
      (processEvent behav (addEventListener (addEventListener c t h1).1 t h2).1 e).1.head?
          = some h1 ∧
      h2 ∉ (processEvent behav (addEventListener (addEventListener c t h1).1 t h2).1 e).1 := by
  have hc1 := ael_fresh c t h1 hfresh
  have hget1 : alGet (addEventListener c t h1).1.eventListeners t = some h1 := by
    rw [hc1]; exact alGet_append_last _ _ _ hfresh
  have hr2 := ael_taken (addEventListener c t h1).1 t h2 h1 hget1
  refine ⟨by rw [hr2], by rw [hr2], by rw [hr2]; exact hget1, ?_⟩
  intro behav e het
  have hnn : e ≠ Json.null := by
    intro h; subst h; simp [eventType, Json.getField] at het
  have hany : (addEventListener (addEventListener c t h1).1 t h2).1.anyEventListeners
      = c.anyEventListeners := by
    rw [hr2, hc1]
  have hbind : (some t).bind
      (alGet (addEventListener (addEventListener c t h1).1 t h2).1.eventListeners)
        = some h1 := by
    rw [hr2]; exact hget1
  have hpe : processEvent behav (addEventListener (addEventListener c t h1).1 t h2).1 e
      = if behav h1 e then ([h1], true)
        else (h1 :: (runAny behav e c.anyEventListeners).1,
          (runAny behav e c.anyEventListeners).2) := by
    unfold processEvent
    rw [if_neg hnn, het, hbind, hany]
  rw [hpe]
  by_cases hb : behav h1 e = true
  · rw [if_pos hb]
    exact ⟨rfl, by simpa using hne1⟩
  · rw [if_neg hb]
    refine ⟨rfl, ?_⟩
    intro hmem
    rw [List.mem_cons] at hmem
    rcases hmem with hmem | hmem
    · exact hne1 hmem
    · exact hne2 (runAny_subset behav e c.anyEventListeners h2 hmem)

/-- `c2_single_owner` at a concrete input: the conflicting registration is
rejected and the original handler stays the owner of the type. -/
theorem c2_single_owner_witness :
    alGet (([] : List (String × Nat))) "x" = none ∧ (1 : Nat) ≠ 0 ∧ (1 : Nat) ∉ [5] ∧
    (addEventListener (addEventListener (⟨[], [5], []⟩ : Conn Nat) "x" 0).1 "x" 1).2.1 = true ∧
    alGet (addEventListener (addEventListener (⟨[], [5], []⟩ : Conn Nat) "x" 0).1 "x" 1).1.eventListeners
      "x" = some 0 :=
  ⟨rfl, by decide, by decide,
    (c2_single_owner ⟨[], [5], []⟩ "x" 0 1 rfl (by decide) (by decide)).1,
    (c2_single_owner ⟨[], [5], []⟩ "x" 0 1 rfl (by decide) (by decide)).2.2.1⟩

/-- A throwing any-event listener aborts the loop: the listeners before it
run, it runs, nothing after it runs, and the exception escapes. -/
theorem runAny_append_throw {κ : Type} (behav : κ → Json → Bool) (e : Json) :
    ∀ (pre : List κ) (k : κ) (post : List κ),
      (∀ j ∈ pre, behav j e = false) → behav k e = true →
      runAny behav e (pre ++ k :: post) = (pre ++ [k], true) := by
  intro pre
  induction pre with
  | nil =>
      intro k post _ hk
      rw [List.nil_append, runAny, if_pos hk]
      rfl
  | cons a as ih =>
      intro k post hpre hk
      have ha : behav a e = false := hpre a (List.mem_cons_self _ _)
      rw [List.cons_append, runAny, if_neg (by simp [ha])]
      show (a :: (runAny behav e (as ++ k :: post)).1,
          (runAny behav e (as ++ k :: post)).2) = ((a :: as) ++ [k], true)
      rw [ih k post (fun j hj => hpre j (List.mem_cons_of_mem _ hj)) hk]
      rfl

/-- `processEvent` has no `try`/`catch`: a registered typed handler that
throws on its event leaves the any-event listener unrun and the exception
escaping, refuting per-handler isolation. -/
theorem c3_counterexample :
    processEvent (fun (k : Nat) _ => k == 0) ⟨[("t", 0)], [7], []⟩
        (Json.obj [("type", Json.str "t")]) = ([0], true) := by decide

/-- **C3** (amended) — A handler exception is not caught by dispatch: a
throwing typed handler aborts dispatch before any any-event listener runs,
and a throwing any-event listener aborts the listeners after it — whether or
not a typed handler ran normally before the loop; in every case the
exception propagates out of `processEvent` to its caller. -/
theorem c3_amended {κ : Type} (behav : κ → Json → Bool) (c : Conn κ) (e : Json)
    (hnn : e ≠ Json.null) :
    (∀ h, (eventType e).bind (alGet c.eventListeners) = some h → behav h e = true →
      processEvent behav c e = ([h], true)) ∧
    (∀ pre k post, (eventType e).bind (alGet c.eventListeners) = none →
      c.anyEventListeners = pre ++ k :: post →
      (∀ j ∈ pre, behav j e = false) → behav k e = true →
      processEvent behav c e = (pre ++ [k], true)) ∧
    (∀ h pre k post, (eventType e).bind (alGet c.eventListeners) = some h →
      behav h e = false →
      c.anyEventListeners = pre ++ k :: post →
      (∀ j ∈ pre, behav j e = false) → behav k e = true →
      processEvent behav c e = (h :: (pre ++ [k]), true)) := by
  refine ⟨?_, ?_, ?_⟩
  · intro h hh hb
    unfold processEvent
    rw [if_neg hnn]
    rw [show (eventType e).bind (alGet c.eventListeners) = some h from hh]
    rw [show (match some h with
      | some h => if behav h e then ([h], true)
        else
          let p := runAny behav e c.anyEventListeners
          (h :: p.1, p.2)
      | none => runAny behav e c.anyEventListeners)
      = if behav h e then ([h], true)
        else (h :: (runAny behav e c.anyEventListeners).1,
          (runAny behav e c.anyEventListeners).2) from rfl]
    rw [if_pos hb]
  · intro pre k post hnone hsplit hpre hk
    unfold processEvent
    rw [if_neg hnn]
    rw [show (eventType e).bind (alGet c.eventListeners) = none from hnone]
    show runAny behav e c.anyEventListeners = (pre ++ [k], true)
    rw [hsplit]
    exact runAny_append_throw behav e pre k post hpre hk
  · intro h pre k post hh hb hsplit hpre hk
    unfold processEvent
    rw [if_neg hnn]
    rw [show (eventType e).bind (alGet c.eventListeners) = some h from hh]
    rw [show (match some h with
      | some h => if behav h e then ([h], true)
        else
          let p := runAny behav e c.anyEventListeners
          (h :: p.1, p.2)
      | none => runAny behav e c.anyEventListeners)
      = if behav h e then ([h], true)
        else (h :: (runAny behav e c.anyEventListeners).1,
          (runAny behav e c.anyEventListeners).2) from rfl]
    rw [if_neg (by rw [hb]; exact Bool.false_ne_true)]
    rw [hsplit, runAny_append_throw behav e pre k post hpre hk]

/-- `c3_amended` at concrete inputs: a throwing typed handler is the only
handler that runs, and after a normally returning typed handler a throwing
any-event listener is the last handler that runs; in both runs the exception
escapes `processEvent`. -/
theorem c3_amended_witness :
    (Json.obj [("type", Json.str "u")]) ≠ Json.null ∧
    processEvent (fun (k : Nat) _ => k == 2) ⟨[("u", 2)], [9], []⟩
        (Json.obj [("type", Json.str "u")]) = ([2], true) ∧
    processEvent (fun (k : Nat) _ => k == 9) ⟨[("u", 2)], [9], []⟩
        (Json.obj [("type", Json.str "u")]) = ([2, 9], true) :=
  ⟨by decide,
    (c3_amended (fun (k : Nat) _ => k == 2) ⟨[("u", 2)], [9], []⟩
        (Json.obj [("type", Json.str "u")]) (by decide)).1 2 (by decide) (by decide),
    (c3_amended (fun (k : Nat) _ => k == 9) ⟨[("u", 2)], [9], []⟩
        (Json.obj [("type", Json.str "u")]) (by decide)).2.2 2 [] 9 []
      (by decide) (by decide) rfl (by intro j hj; cases hj) (by decide)⟩

/-- A parsed frame with no `type` field at all is not dropped: it is handed
to the dispatcher as-is (here invoking the any-event listener `7`), with no
failure reported, refuting the drop-with-diagnostic reading. -/
theorem c7_counterexample :
    handleParsed (fun (_ : Nat) _ => false) ⟨[], [7], []⟩ (Json.obj [("foo", Json.num 1)])
      = ⟨⟨[], [7], []⟩, [Json.obj [("foo", Json.num 1)]], [7], [], false⟩ := by decide

/-- **C7** (amended) — Every frame that parses as JSON and is neither `null`
nor a `full_message` nor a `partial_message` envelope is treated as legacy
passthrough, whether or not it carries a `type` field: the frame itself is
dispatched as the application event, nothing is logged, and the state is
unchanged. -/
theorem c7_amended {κ : Type} (behav : κ → Json → Bool) (c : Conn κ) (data : Json)
    (h0 : data ≠ Json.null)
    (h1 : data.getField "type" ≠ some (Json.str "full_message"))
    (h2 : data.getField "type" ≠ some (Json.str "partial_message")) :
    handleParsed behav c data = handleLegacy behav c data ∧
    (handleParsed behav c data).emitted = [data] ∧
    (handleParsed behav c data).conn = c ∧
    (handleParsed behav c data).log = [] := by
  have hl : handleParsed behav c data = handleLegacy behav c data := by
    unfold handleParsed
    rw [if_neg h0, if_neg h1, if_neg h2]
  exact ⟨hl, by rw [hl]; rfl, by rw [hl]; rfl, by rw [hl]; rfl⟩

/-- `c7_amended` at a concrete input: a typeless object frame is emitted
as-is with an empty log. -/
theorem c7_amended_witness :
    (Json.obj [("foo", Json.num 1)] ≠ Json.null) ∧
    (Json.obj [("foo", Json.num 1)]).getField "type" ≠ some (Json.str "full_message") ∧
    (Json.obj [("foo", Json.num 1)]).getField "type" ≠ some (Json.str "partial_message") ∧
    (handleParsed (fun (_ : Nat) _ => false) (⟨[], [], []⟩ : Conn Nat)
        (Json.obj [("foo", Json.num 1)])).emitted = [Json.obj [("foo", Json.num 1)]] :=
  ⟨by decide, by decide, by decide,
    (c7_amended (fun (_ : Nat) _ => false) ⟨[], [], []⟩ (Json.obj [("foo", Json.num 1)])
      (by decide) (by decide) (by decide)).2.1⟩

/-- With a `total_fragments` value different from the incremented counter,
`handleFrag` silently stores the updated record: the slot is written, the
counter incremented, nothing logged, nothing emitted. -/
theorem handleFrag_mismatch {κ : Type} (behav : κ → Json → Bool) (c : Conn κ)
    (mid fidx ftot dataField : Option Json) (rec0 : FragRec)
    (hmis : ftot ≠ some (Json.num ((rec0.receivedFragments + 1 : Nat) : Int))) :
    handleFrag behav c mid fidx ftot dataField rec0 =
      ⟨{ c with
          messageFragments := alSet c.messageFragments mid
            (FragRec.mk (setSlot rec0.fragments fidx (joinArg dataField)) rec0.totalFragments
              (rec0.receivedFragments + 1)) },
        [], [], [], false⟩ := by
  unfold handleFrag
  rw [if_neg hmis]

/-- A non-negative in-range numeric `fragment_index` is a plain array store. -/
theorem setSlot_inRange (slots : List String) (n : Nat) (v : String)
    (hn : n < slots.length) :
    setSlot slots (some (Json.num (n : Int))) v = slots.set n v := by
  unfold setSlot
  show (if (n : Int) < 0 then slots
    else if (n : Int).toNat < slots.length then slots.set (n : Int).toNat v
    else slots ++ List.replicate ((n : Int).toNat - slots.length) "" ++ [v]) = slots.set n v
  rw [if_neg (by exact Int.not_lt.mpr (Int.natCast_nonneg n)), Int.toNat_natCast, if_pos hn]

/-- A fragment whose `total_fragments` (1) differs from the one the record
was created with (2) is not dropped: its slot is written, the counter
incremented, and — because completion compares against the incoming frame's
value — reassembly fires at once and emits an event from the lone slice. -/
theorem c6_counterexample :
    handlePartial (fun (_ : Nat) _ => false)
        ⟨[], [], [(some (Json.str "m"), ⟨["", ""], 2, 0⟩)]⟩
        (Json.obj [("type", Json.str "partial_message"), ("id", Json.str "m"),
          ("fragment_index", Json.num 0), ("total_fragments", Json.num 1),
          ("data", Json.str "MQ==")])
      = ⟨⟨[], [], []⟩, [Json.num 1], [], [], false⟩ := by decide

/-- **C6** (amended) — No `total_fragments` mismatch check exists: a fragment
for an existing record is stored and counted whatever `total_fragments` it
carries (the value recorded at creation is never read back), nothing is
logged, and completion is decided solely by comparing the incoming frame's
`total_fragments` with the incremented counter. -/
theorem c6_amended {κ : Type} (behav : κ → Json → Bool) (c : Conn κ) (data : Json)
    (rec0 : FragRec)
    (hrec : alGet c.messageFragments (data.getField "id") = some rec0)
    (hmis : data.getField "total_fragments"
        ≠ some (Json.num ((rec0.receivedFragments + 1 : Nat) : Int))) :
    handlePartial behav c data =
      ⟨{ c with
          messageFragments := alSet c.messageFragments (data.getField "id")
            (FragRec.mk (setSlot rec0.fragments (data.getField "fragment_index")
                (joinArg (data.getField "data"))) rec0.totalFragments
              (rec0.receivedFragments + 1)) },
        [], [], [], false⟩ := by
  simp only [handlePartial]
  rw [hrec]
  exact handleFrag_mismatch behav c (data.getField "id") (data.getField "fragment_index")
    (data.getField "total_fragments") (data.getField "data") rec0 hmis

/-- `c6_amended` at a concrete input: the frame's `total_fragments` (5)
disagrees with the record's (2); the fragment is stored and counted anyway,
silently. -/
theorem c6_amended_witness :
    alGet ([(some (Json.str "m"), (⟨["", ""], 2, 0⟩ : FragRec))])
        ((Json.obj [("type", Json.str "partial_message"), ("id", Json.str "m"),
          ("fragment_index", Json.num 0), ("total_fragments", Json.num 5),
          ("data", Json.str "ab")]).getField "id") = some ⟨["", ""], 2, 0⟩ ∧
    handlePartial (fun (_ : Nat) _ => false)
        ⟨[], [], [(some (Json.str "m"), ⟨["", ""], 2, 0⟩)]⟩
        (Json.obj [("type", Json.str "partial_message"), ("id", Json.str "m"),
          ("fragment_index", Json.num 0), ("total_fragments", Json.num 5),
          ("data", Json.str "ab")])
      = ⟨⟨[], [], [(some (Json.str "m"), ⟨["ab", ""], 2, 1⟩)]⟩, [], [], [], false⟩ :=
  ⟨by decide, by
    rw [c6_amended (fun (_ : Nat) _ => false)
      ⟨[], [], [(some (Json.str "m"), ⟨["", ""], 2, 0⟩)]⟩
      (Json.obj [("type", Json.str "partial_message"), ("id", Json.str "m"),
        ("fragment_index", Json.num 0), ("total_fragments", Json.num 5),
        ("data", Json.str "ab")]) ⟨["", ""], 2, 0⟩ (by decide) (by decide)]
    decide⟩

/-- **C9** — A duplicate `fragment_index` is not guarded against: an in-range
numeric index overwrites its slot (whatever it held) and still increments the
received counter; and delivering the same fragment of a two-fragment message
twice reaches the count, triggers completion, and emits an event reassembled
with slot 1 never filled by a distinct fragment. -/
theorem c9_duplicate_fragment {κ : Type} (behav : κ → Json → Bool) (c : Conn κ)
    (mid ftot dataField : Option Json) (rec0 : FragRec) (n : Nat)
    (hn : n < rec0.fragments.length)
    (hmis : ftot ≠ some (Json.num ((rec0.receivedFragments + 1 : Nat) : Int))) :
    handleFrag behav c mid (some (Json.num (n : Int))) ftot dataField rec0 =
      ⟨{ c with
          messageFragments := alSet c.messageFragments mid
            (FragRec.mk (rec0.fragments.set n (joinArg dataField)) rec0.totalFragments
              (rec0.receivedFragments + 1)) },
        [], [], [], false⟩ ∧
    ingestList (fun (_ : Nat) _ => false) ⟨[], [], []⟩
        [Json.obj [("type", Json.str "partial_message"), ("id", Json.str "m"),
          ("fragment_index", Json.num 0), ("total_fragments", Json.num 2),
          ("data", Json.str "eyJhIjoxfQ==")],
         Json.obj [("type", Json.str "partial_message"), ("id", Json.str "m"),
          ("fragment_index", Json.num 0), ("total_fragments", Json.num 2),
          ("data", Json.str "eyJhIjoxfQ==")]]
      = ⟨⟨[], [], []⟩, [Json.obj [("a", Json.num 1)]], [], [], false⟩ := by
  constructor
  · rw [handleFrag_mismatch behav c mid (some (Json.num (n : Int))) ftot dataField rec0 hmis,
      setSlot_inRange rec0.fragments n (joinArg dataField) hn]
  · decide

/-- `c9_duplicate_fragment` at a concrete input: the already-written slot 1
is overwritten and the counter moves from 3 to 4. -/
theorem c9_duplicate_fragment_witness :
    (1 : Nat) < (["x", "y"] : List String).length ∧
    (none : Option Json) ≠ some (Json.num ((3 + 1 : Nat) : Int)) ∧
    handleFrag (fun (_ : Nat) _ => false) ⟨[], [], []⟩ (some (Json.str "k"))
        (some (Json.num ((1 : Nat) : Int))) none (some (Json.str "z")) ⟨["x", "y"], 7, 3⟩
      = ⟨⟨[], [], alSet [] (some (Json.str "k")) ⟨["x", "z"], 7, 3 + 1⟩⟩, [], [], [], false⟩ :=
  ⟨by decide, by decide,
    (c9_duplicate_fragment (fun (_ : Nat) _ => false) ⟨[], [], []⟩ (some (Json.str "k"))
      none (some (Json.str "z")) ⟨["x", "y"], 7, 3⟩ 1 (by decide) (by decide)).1⟩

/-- **C8** — Two deltas `"Hel"` then `"lo"` for a message item whose first
content part is `text` leave that part equal to its prior value followed by
`"Hello"` (with no diagnostic); a delta addressed to a non-existent item, a
non-message item, a message with no content, or a first part that cannot
accumulate text is reported and leaves the conversation unchanged. -/
theorem c8_addDelta (c : Conversation) (id i st role t : String) (rest : List ConvContent)
    (hid : alGet c.items id = some (ConvItem.message i st role (ConvContent.text t :: rest))) :
    (addDelta (addDelta c id "Hel").1 id "lo").1
        = ⟨alSet c.items id (ConvItem.message i st role
            (ConvContent.text (t ++ "Hello") :: rest))⟩ ∧
    (addDelta c id "Hel").2 = [] ∧
    (addDelta (addDelta c id "Hel").1 id "lo").2 = [] ∧
    (∀ (c' : Conversation) (id' d : String), alGet c'.items id' = none →
      addDelta c' id' d = (c', ["Cannot add delta to non-existent item"])) ∧
    (∀ (c' : Conversation) (id' d a s cid nm args : String),
      alGet c'.items id' = some (ConvItem.function_call a s cid nm args) →
      addDelta c' id' d = (c', ["Cannot add delta to non-message item"])) ∧
    (∀ (c' : Conversation) (id' d a s cid outp : String),
      alGet c'.items id' = some (ConvItem.function_call_output a s cid outp) →
      addDelta c' id' d = (c', ["Cannot add delta to non-message item"])) ∧
    (∀ (c' : Conversation) (id' d a s r : String),
      alGet c'.items id' = some (ConvItem.message a s r []) →
      addDelta c' id' d = (c', ["Cannot add delta to message with no content"])) ∧
    (∀ (c' : Conversation) (id' d a s r : String) (tr : Option String)
        (more : List ConvContent),
      alGet c'.items id' = some (ConvItem.message a s r (ConvContent.input_audio tr :: more)) →
      addDelta c' id' d = (c', ["Cannot add delta to audio content"])) ∧
    (∀ (c' : Conversation) (id' d a s r rid : String) (more : List ConvContent),
      alGet c'.items id' = some (ConvItem.message a s r (ConvContent.item_reference rid :: more)) →
      addDelta c' id' d = (c', ["Cannot add delta to item reference content"])) := by
  have h1 : addDelta c id "Hel"
      = (⟨alSet c.items id (ConvItem.message i st role
          (ConvContent.text (t ++ "Hel") :: rest))⟩, []) := by
    unfold addDelta; rw [hid]
  have h2 : addDelta (⟨alSet c.items id (ConvItem.message i st role
        (ConvContent.text (t ++ "Hel") :: rest))⟩ : Conversation) id "lo"
      = (⟨alSet (alSet c.items id (ConvItem.message i st role
            (ConvContent.text (t ++ "Hel") :: rest))) id
          (ConvItem.message i st role (ConvContent.text ((t ++ "Hel") ++ "lo") :: rest))⟩, []) := by
    unfold addDelta; rw [alGet_alSet_self]
  refine ⟨?_, by rw [h1], by rw [h1, h2], ?_, ?_, ?_, ?_, ?_, ?_⟩
  · rw [h1, h2]
    show Conversation.mk (alSet (alSet c.items id
        (ConvItem.message i st role (ConvContent.text (t ++ "Hel") :: rest))) id
        (ConvItem.message i st role (ConvContent.text ((t ++ "Hel") ++ "lo") :: rest)))
      = Conversation.mk (alSet c.items id (ConvItem.message i st role
          (ConvContent.text (t ++ "Hello") :: rest)))
    rw [alSet_alSet, String.append_assoc,
      show ("Hel" ++ "lo" : String) = "Hello" from by decide]
  · intro c' id' d h; unfold addDelta; rw [h]
  · intro c' id' d a s cid nm args h; unfold addDelta; rw [h]
  · intro c' id' d a s cid outp h; unfold addDelta; rw [h]
  · intro c' id' d a s r h; unfold addDelta; rw [h]
  · intro c' id' d a s r tr more h; unfold addDelta; rw [h]
  · intro c' id' d a s r rid more h; unfold addDelta; rw [h]

/-- `c8_addDelta` at a concrete input: `"X"` accumulates to `"XHello"`. -/
theorem c8_addDelta_witness :
    alGet [("a", ConvItem.message "a" "completed" "assistant" [ConvContent.text "X"])] "a"
        = some (ConvItem.message "a" "completed" "assistant" (ConvContent.text "X" :: [])) ∧
    (addDelta (addDelta ⟨[("a", ConvItem.message "a" "completed" "assistant"
          [ConvContent.text "X"])]⟩ "a" "Hel").1 "a" "lo").1
      = ⟨alSet [("a", ConvItem.message "a" "completed" "assistant" [ConvContent.text "X"])] "a"
          (ConvItem.message "a" "completed" "assistant" (ConvContent.text ("X" ++ "Hello") :: []))⟩ :=
  ⟨by decide,
    (c8_addDelta ⟨[("a", ConvItem.message "a" "completed" "assistant" [ConvContent.text "X"])]⟩
      "a" "a" "completed" "assistant" "X" [] (by decide)).1⟩

theorem firstSeen_cons (t : McpTool) (ts : List McpTool) (seen : List String) :
    firstSeen (t :: ts) seen
      = if t.name ∈ seen then firstSeen ts seen
        else t :: firstSeen ts (seen ++ [t.name]) := rfl

theorem okTools_append (xs ys : List (Except String (List McpTool))) :
    okTools (xs ++ ys) = okTools xs ++ okTools ys := by
  induction xs with
  | nil => rfl
  | cons r rs ih =>
      cases r with
      | ok ts => rw [List.cons_append, okTools, okTools, ih, List.append_assoc]
      | error e => rw [List.cons_append, okTools, okTools, ih]

theorem any_name_mem (A : List McpTool) (n : String) :
    A.any (fun u => u.name = n) = true ↔ n ∈ A.map McpTool.name := by
  constructor
  · intro h
    rw [List.any_eq_true] at h
    obtain ⟨x, hx, he⟩ := h
    rw [decide_eq_true_eq] at he
    exact he ▸ List.mem_map_of_mem _ hx
  · intro h
    rw [List.mem_map] at h
    obtain ⟨x, hx, he⟩ := h
    rw [List.any_eq_true]
    exact ⟨x, hx, by rw [decide_eq_true_eq]; exact he⟩

theorem foldl_insertTool (ts : List McpTool) :
    ∀ (A : List McpTool) (logs : List String),
      (ts.foldl insertTool (A, logs)).1 = A ++ firstSeen ts (A.map McpTool.name) := by
  induction ts with
  | nil => intro A logs; simp [firstSeen]
  | cons t ts ih =>
      intro A logs
      rw [List.foldl_cons, firstSeen_cons]
      by_cases hmem : t.name ∈ A.map McpTool.name
      · have hany : A.any (fun u => u.name = t.name) = true := (any_name_mem A t.name).2 hmem
        rw [show insertTool (A, logs) t
            = (A, logs ++ ["Duplicate tool found: " ++ t.name]) from by
          unfold insertTool; rw [if_pos hany]]
        rw [ih A _, if_pos hmem]
      · have hany : ¬(A.any (fun u => u.name = t.name) = true) :=
          fun h => hmem ((any_name_mem A t.name).1 h)
        rw [show insertTool (A, logs) t = (A ++ [t], logs) from by
          unfold insertTool; rw [if_neg hany]]
        rw [ih (A ++ [t]) logs, if_neg hmem, List.map_append, List.append_assoc]
        rfl

theorem firstSeen_append (xs ys : List McpTool) :
    ∀ seen, firstSeen (xs ++ ys) seen
      = firstSeen xs seen
        ++ firstSeen ys (seen ++ (firstSeen xs seen).map McpTool.name) := by
  induction xs with
  | nil => intro seen; simp [firstSeen]
  | cons t ts ih =>
      intro seen
      rw [List.cons_append, firstSeen_cons, firstSeen_cons]
      by_cases hmem : t.name ∈ seen
      · rw [if_pos hmem, if_pos hmem, ih]
      · rw [if_neg hmem, if_neg hmem, ih (seen ++ [t.name])]
        rw [List.map_cons, List.cons_append]
        rw [show seen ++ t.name :: (firstSeen ts (seen ++ [t.name])).map McpTool.name
            = (seen ++ [t.name]) ++ (firstSeen ts (seen ++ [t.name])).map McpTool.name from by
          rw [List.append_assoc]; rfl]

theorem firstSeen_nodup : ∀ (ts : List McpTool) (seen : List String),
    ((firstSeen ts seen).map McpTool.name).Nodup
      ∧ ∀ n ∈ (firstSeen ts seen).map McpTool.name, n ∉ seen := by
  intro ts
  induction ts with
  | nil =>
      intro seen
      exact ⟨List.nodup_nil, by intro n hn; cases hn⟩
  | cons t ts ih =>
      intro seen
      rw [firstSeen_cons]
      by_cases hmem : t.name ∈ seen
      · rw [if_pos hmem]; exact ih seen
      · rw [if_neg hmem]
        obtain ⟨hnd, hnin⟩ := ih (seen ++ [t.name])
        constructor
        · rw [List.map_cons, List.nodup_cons]
          refine ⟨fun hin => hnin t.name hin (by simp), hnd⟩
        · intro n hn
          rw [List.map_cons, List.mem_cons] at hn
          rcases hn with hn | hn
          · exact hn ▸ hmem
          · intro hns
            exact hnin n hn (by simp [hns])

theorem mergeTools_acc : ∀ (rs : List (Except String (List McpTool)))
    (A : List McpTool) (logs : List String),
    (rs.foldl mergeStep (A, logs)).1 = A ++ firstSeen (okTools rs) (A.map McpTool.name) := by
  intro rs
  induction rs with
  | nil => intro A logs; simp [okTools, firstSeen]
  | cons r rs ih =>
      intro A logs
      rw [List.foldl_cons]
      cases r with
      | ok ts =>
          rw [show mergeStep (A, logs) (Except.ok ts) = ts.foldl insertTool (A, logs) from rfl]
          have hp : ts.foldl insertTool (A, logs)
              = ((ts.foldl insertTool (A, logs)).1, (ts.foldl insertTool (A, logs)).2) := rfl
          rw [hp, ih, foldl_insertTool ts A logs]
          rw [show okTools (Except.ok ts :: rs) = ts ++ okTools rs from rfl]
          rw [firstSeen_append, List.append_assoc, List.map_append]
      | error e =>
          rw [show mergeStep (A, logs) (Except.error e)
              = (A, logs ++ ["Failed to fetch tools"]) from rfl]
          rw [ih A _]
          rfl

/-- **C5** — The aggregate `listTools` merge is first-seen-wins by tool name
over the fulfilled results in server-iteration order: the result equals the
spec's first-seen dedup of the contributed tools, its names are pairwise
distinct, a later duplicate is dropped with a "Duplicate tool found"
diagnostic, and a rejected per-server request contributes nothing beyond a
"Failed to fetch tools" diagnostic, without failing the aggregate call. -/
theorem c5_listTools_merge (m : Mgr) :
    (mgrListTools m).2.1 = firstSeen (okTools (fetchAll m.servers).2) [] ∧
    ((mgrListTools m).2.1.map McpTool.name).Nodup ∧
    (∀ (rs1 rs2 : List (Except String (List McpTool))) (msg : String),
      (mergeTools (rs1 ++ Except.error msg :: rs2)).1 = (mergeTools (rs1 ++ rs2)).1) ∧
    (∀ (A : List McpTool) (logs : List String) (t : McpTool),
      A.any (fun u => u.name = t.name) = true →
      insertTool (A, logs) t = (A, logs ++ ["Duplicate tool found: " ++ t.name])) ∧
    (∀ (A : List McpTool) (logs : List String) (msg : String),
      mergeStep (A, logs) (Except.error msg) = (A, logs ++ ["Failed to fetch tools"])) := by
  have hmt : ∀ rs : List (Except String (List McpTool)),
      (mergeTools rs).1 = firstSeen (okTools rs) [] := by
    intro rs
    unfold mergeTools
    rw [mergeTools_acc rs [] []]
    rfl
  refine ⟨?_, ?_, ?_, ?_, ?_⟩
  · show (mergeTools (fetchAll m.servers).2).1 = _
    exact hmt _
  · show ((mergeTools (fetchAll m.servers).2).1.map McpTool.name).Nodup
    rw [hmt]
    exact (firstSeen_nodup _ []).1
  · intro rs1 rs2 msg
    rw [hmt, hmt, okTools_append, okTools_append]
    rw [show okTools (Except.error msg :: rs2) = okTools rs2 from rfl]
  · intro A logs t hany
    unfold insertTool; rw [if_pos hany]
  · intro A logs msg
    rfl

/-- A second `listTools` on the server a first `listTools` returned settles
the same way: a fulfilled fetch was cached, a rejection is deterministic. -/
theorem listTools_idem (s : Server) :
    s.listTools.1.listTools = (s.listTools.1, s.listTools.2) := by
  cases hc : s.cachedTools with
  | some ts =>
      rw [show s.listTools = (s, Except.ok ts) from by unfold Server.listTools; rw [hc]]
      unfold Server.listTools
      rw [hc]
  | none =>
      cases hf : s.fetchTools with
      | ok ts =>
          rw [show s.listTools = ({ s with cachedTools := some ts }, Except.ok ts) from by
            unfold Server.listTools; rw [hc, hf]]
          unfold Server.listTools
          rfl
      | error e =>
          rw [show s.listTools = (s, Except.error e) from by
            unfold Server.listTools; rw [hc, hf]]
          unfold Server.listTools
          rw [hc, hf]

theorem rescan_cons_err (s : Server) (rest : List Server) (name msg : String)
    (h : s.listTools.2 = Except.error msg) :
    (rescan name (s :: rest)).2 = CallOutcome.fetchErr s.name msg := by
  simp only [rescan]
  rw [h]

theorem rescan_cons_found (s : Server) (rest : List Server) (name : String)
    (ts : List McpTool) (h : s.listTools.2 = Except.ok ts)
    (hany : ts.any (fun t => t.name = name) = true) :
    (rescan name (s :: rest)).2 = CallOutcome.called s.name := by
  simp only [rescan]
  rw [h]
  show (if ts.any (fun t => t.name = name) then (s.listTools.1 :: rest, CallOutcome.called s.name)
    else (s.listTools.1 :: (rescan name rest).1, (rescan name rest).2)).2
      = CallOutcome.called s.name
  rw [if_pos hany]

theorem rescan_cons_next (s : Server) (rest : List Server) (name : String)
    (ts : List McpTool) (h : s.listTools.2 = Except.ok ts)
    (hany : ts.any (fun t => t.name = name) = false) :
    (rescan name (s :: rest)).2 = (rescan name rest).2 := by
  simp only [rescan]
  rw [h]
  show (if ts.any (fun t => t.name = name) then (s.listTools.1 :: rest, CallOutcome.called s.name)
    else (s.listTools.1 :: (rescan name rest).1, (rescan name rest).2)).2
      = (rescan name rest).2
  rw [if_neg (by rw [hany]; exact Bool.false_ne_true)]

/-- Servers whose (settled) tool list does not carry the name are walked
past by the re-scan. -/
theorem rescan_append (name : String) : ∀ (pre : List Server) (s : Server) (post : List Server),
    (∀ u ∈ pre, ∃ ts, u.listTools.2 = Except.ok ts ∧
      ts.any (fun t => t.name = name) = false) →
    (rescan name (pre ++ s :: post)).2 = (rescan name (s :: post)).2 := by
  intro pre
  induction pre with
  | nil => intro s post _; rw [List.nil_append]
  | cons u us ih =>
      intro s post h
      obtain ⟨ts, hu, hany⟩ := h u (List.mem_cons_self _ _)
      rw [List.cons_append, rescan_cons_next u (us ++ s :: post) name ts hu hany]
      exact ih s post (fun v hv => h v (List.mem_cons_of_mem _ hv))

/-- Everything the first-seen dedup keeps came from its input. -/
theorem firstSeen_subset : ∀ (ts : List McpTool) (seen : List String) (t : McpTool),
    t ∈ firstSeen ts seen → t ∈ ts := by
  intro ts
  induction ts with
  | nil => intro seen t h; cases h
  | cons x xs ih =>
      intro seen t h
      rw [firstSeen_cons] at h
      by_cases hmem : x.name ∈ seen
      · rw [if_pos hmem] at h
        exact List.mem_cons_of_mem _ (ih seen t h)
      · rw [if_neg hmem] at h
        rw [List.mem_cons] at h
        rcases h with h | h
        · exact h ▸ List.mem_cons_self _ _
        · exact List.mem_cons_of_mem _ (ih _ t h)

/-- The merged tool list is exactly the spec's first-seen dedup of the
fulfilled contributions. -/
theorem mergeTools_firstSeen (rs : List (Except String (List McpTool))) :
    (mergeTools rs).1 = firstSeen (okTools rs) [] := by
  unfold mergeTools
  rw [mergeTools_acc rs [] []]
  rfl

/-- A name carried by some fulfilled result is found (or a rejection is hit
first) before the re-scan loop runs out: the stale outcome is unreachable
from a catalog hit. -/
theorem rescan_not_stale : ∀ (ss : List Server) (name : String),
    (∃ t, t.name = name ∧ t ∈ okTools (fetchAll ss).2) →
    (rescan name (fetchAll ss).1).2 ≠ CallOutcome.stale := by
  intro ss
  induction ss with
  | nil =>
      intro name h
      obtain ⟨t, _, ht⟩ := h
      cases ht
  | cons s rest ih =>
      intro name h
      rw [show fetchAll (s :: rest)
          = (s.listTools.1 :: (fetchAll rest).1,
            s.listTools.2 :: (fetchAll rest).2) from rfl] at h ⊢
      cases hlt : s.listTools.2 with
      | error msg =>
          rw [rescan_cons_err (s.listTools.1) (fetchAll rest).1 name msg
            (by rw [listTools_idem s]; exact hlt)]
          intro hco
          cases hco
      | ok ts =>
          by_cases hany : ts.any (fun t => t.name = name) = true
          · rw [rescan_cons_found (s.listTools.1) (fetchAll rest).1 name ts
              (by rw [listTools_idem s]; exact hlt) hany]
            intro hco
            cases hco
          · have hany2 : ts.any (fun t => t.name = name) = false :=
              Bool.eq_false_iff.mpr hany
            rw [rescan_cons_next (s.listTools.1) (fetchAll rest).1 name ts
              (by rw [listTools_idem s]; exact hlt) hany2]
            refine ih name ?_
            obtain ⟨t, htn, htm⟩ := h
            rw [show okTools (s.listTools.2 :: (fetchAll rest).2)
                = okTools (Except.ok ts :: (fetchAll rest).2) from by rw [hlt]] at htm
            rw [show okTools (Except.ok ts :: (fetchAll rest).2)
                = ts ++ okTools (fetchAll rest).2 from rfl] at htm
            rw [List.mem_append] at htm
            rcases htm with htm | htm
            · exfalso
              apply hany
              rw [List.any_eq_true]
              exact ⟨t, htm, by rw [decide_eq_true_eq]; exact htn⟩
            · exact ⟨t, htn, htm⟩

/-- With server "A" (whose `listTools` rejects) registered before server "B"
(which owns tool "x"), `callTool` on "x" does not forward to "B": the
re-scan's unprotected `await` propagates "A"'s rejection instead. -/
theorem c4_counterexample :
    (mgrCallTool ⟨[⟨"A", Except.error "boom", none⟩,
        ⟨"B", Except.ok [⟨"x", "d"⟩], none⟩]⟩ "x").2
      = CallOutcome.fetchErr "A" "boom" := by decide

/-- **C4** (amended) — A name absent from the merged catalog fails with the
"tool not found" outcome; the distinct stale-cache outcome is unreachable;
and for a name in the catalog the call is forwarded to the first server whose
re-scanned list contains it only when every earlier server's `listTools`
settles successfully without the name — an earlier rejection propagates out
of `callTool` as that server's fetch error instead. -/
theorem c4_amended (m : Mgr) (name : String) :
    ((mgrListTools m).2.1.any (fun t => t.name = name) = false →
      (mgrCallTool m name).2 = CallOutcome.notFound) ∧
    (mgrCallTool m name).2 ≠ CallOutcome.stale ∧
    ((mgrListTools m).2.1.any (fun t => t.name = name) = true →
      ∀ (pre : List Server) (s : Server) (post : List Server),
        (mgrListTools m).1.servers = pre ++ s :: post →
        (∀ u ∈ pre, ∃ ts, u.listTools.2 = Except.ok ts ∧
          ts.any (fun t => t.name = name) = false) →
        (∀ msg, s.listTools.2 = Except.error msg →
          (mgrCallTool m name).2 = CallOutcome.fetchErr s.name msg) ∧
        (∀ ts, s.listTools.2 = Except.ok ts → ts.any (fun t => t.name = name) = true →
          (mgrCallTool m name).2 = CallOutcome.called s.name)) := by
  have hnf : (mgrListTools m).2.1.any (fun t => t.name = name) = false →
      (mgrCallTool m name).2 = CallOutcome.notFound := by
    intro h
    simp only [mgrCallTool]
    rw [if_pos (by rw [h]; exact Bool.false_ne_true)]
  have heq : (mgrListTools m).2.1.any (fun t => t.name = name) = true →
      (mgrCallTool m name).2 = (rescan name (mgrListTools m).1.servers).2 := by
    intro h
    simp only [mgrCallTool]
    rw [if_neg (by rw [h]; exact not_not_intro rfl)]
  refine ⟨hnf, ?_, ?_⟩
  · by_cases hb : (mgrListTools m).2.1.any (fun t => t.name = name) = true
    · rw [heq hb]
      have hmem : ∃ t, t.name = name ∧ t ∈ okTools (fetchAll m.servers).2 := by
        have hb2 : (mergeTools (fetchAll m.servers).2).1.any
            (fun t => t.name = name) = true := hb
        rw [List.any_eq_true] at hb2
        obtain ⟨t, htm, htn⟩ := hb2
        rw [decide_eq_true_eq] at htn
        rw [mergeTools_firstSeen] at htm
        exact ⟨t, htn, firstSeen_subset _ [] t htm⟩
      show (rescan name (fetchAll m.servers).1).2 ≠ CallOutcome.stale
      exact rescan_not_stale m.servers name hmem
    · rw [hnf (Bool.eq_false_iff.mpr hb)]
      intro hco
      cases hco
  · intro hb pre s post hsplit hpre
    constructor
    · intro msg hmsg
      rw [heq hb, hsplit, rescan_append name pre s post hpre,
        rescan_cons_err s post name msg hmsg]
    · intro ts hts hany
      rw [heq hb, hsplit, rescan_append name pre s post hpre,
        rescan_cons_found s post name ts hts hany]

theorem mkFrame_type (id : String) (total idx : Nat) (slice : String) :
    (mkFrame id total idx slice).getField "type" = some (Json.str "partial_message") := rfl

theorem mkFrame_id (id : String) (total idx : Nat) (slice : String) :
    (mkFrame id total idx slice).getField "id" = some (Json.str id) := rfl

theorem mkFrame_fidx (id : String) (total idx : Nat) (slice : String) :
    (mkFrame id total idx slice).getField "fragment_index"
      = some (Json.num (idx : Int)) := rfl

theorem mkFrame_ftot (id : String) (total idx : Nat) (slice : String) :
    (mkFrame id total idx slice).getField "total_fragments"
      = some (Json.num (total : Int)) := rfl

theorem mkFrame_data (id : String) (total idx : Nat) (slice : String) :
    (mkFrame id total idx slice).getField "data" = some (Json.str slice) := rfl

theorem mkFrame_ne_null (id : String) (total idx : Nat) (slice : String) :
    mkFrame id total idx slice ≠ Json.null := by
  intro h
  cases h

theorem joinArg_str (s : String) : joinArg (some (Json.str s)) = s := asString_toList s

theorem slotsAfter_length (slices : List String) (done : List Nat) :
    (slotsAfter slices done).length = slices.length := by
  simp [slotsAfter]

theorem slotsAfter_nil (slices : List String) :
    slotsAfter slices [] = List.replicate slices.length "" := by
  apply List.ext_getElem
  · simp [slotsAfter]
  · intro j h1 h2
    simp [slotsAfter]

theorem slotsAfter_set (slices : List String) (done : List Nat) (i : Nat)
    (_hi : i < slices.length) (_hnd : i ∉ done) :
    (slotsAfter slices done).set i (slices.getD i "") = slotsAfter slices (done ++ [i]) := by
  apply List.ext_getElem
  · simp [slotsAfter]
  · intro j h1 h2
    rw [List.getElem_set]
    by_cases hj : i = j
    · subst hj
      rw [if_pos rfl]
      simp only [slotsAfter, List.getElem_map, List.getElem_range]
      rw [if_pos (by simp)]
    · rw [if_neg hj]
      simp only [slotsAfter, List.getElem_map, List.getElem_range]
      have : j ∈ done ++ [i] ↔ j ∈ done := by
        simp [List.mem_append]
        intro h
        exact absurd h.symm hj
      rw [show (if j ∈ done ++ [i] then slices.getD j "" else "")
          = (if j ∈ done then slices.getD j "" else "") from by
        by_cases hd : j ∈ done
        · rw [if_pos hd, if_pos (this.mpr hd)]
        · rw [if_neg hd, if_neg (fun hc => hd (this.mp hc))]]

theorem slotsAfter_full (slices : List String) (done : List Nat)
    (hall : ∀ j < slices.length, j ∈ done) :
    slotsAfter slices done = slices := by
  apply List.ext_getElem
  · simp [slotsAfter]
  · intro j h1 h2
    simp only [slotsAfter, List.getElem_map, List.getElem_range]
    rw [if_pos (hall j h2), List.getD_eq_getElem slices "" h2]

theorem handleParsed_mkFrame {κ : Type} (behav : κ → Json → Bool) (cc : Conn κ)
    (id : String) (n i : Nat) (slice : String) :
    handleParsed behav cc (mkFrame id n i slice)
      = handlePartial behav cc (mkFrame id n i slice) := by
  unfold handleParsed
  rw [if_neg (mkFrame_ne_null id n i slice),
    if_neg (by rw [mkFrame_type]; decide),
    if_pos (by rw [mkFrame_type])]

theorem handlePartial_mkFrame_present {κ : Type} (behav : κ → Json → Bool) (cc : Conn κ)
    (id : String) (n i : Nat) (slice : String) (rec0 : FragRec)
    (hrec : alGet cc.messageFragments (some (Json.str id)) = some rec0) :
    handlePartial behav cc (mkFrame id n i slice)
      = handleFrag behav cc (some (Json.str id)) (some (Json.num (i : Int)))
          (some (Json.num (n : Int))) (some (Json.str slice)) rec0 := by
  simp only [handlePartial, mkFrame_id, mkFrame_fidx, mkFrame_ftot, mkFrame_data]
  rw [hrec]

theorem handlePartial_mkFrame_fresh {κ : Type} (behav : κ → Json → Bool) (cc : Conn κ)
    (id : String) (n i : Nat) (slice : String)
    (hrec : alGet cc.messageFragments (some (Json.str id)) = none) :
    handlePartial behav cc (mkFrame id n i slice)
      = handleFrag behav cc (some (Json.str id)) (some (Json.num (i : Int)))
          (some (Json.num (n : Int))) (some (Json.str slice))
          ⟨List.replicate n "", n, 0⟩ := by
  simp only [handlePartial, mkFrame_id, mkFrame_fidx, mkFrame_ftot, mkFrame_data]
  rw [hrec]
  show (if (n : Int) < 0 then (⟨cc, [], [], [], true⟩ : Ingest κ)
    else handleFrag behav cc (some (Json.str id)) (some (Json.num (i : Int)))
      (some (Json.num (n : Int))) (some (Json.str slice))
      ⟨List.replicate (n : Int).toNat "", (n : Int).toNat, 0⟩) = _
  rw [if_neg (Int.not_lt.mpr (Int.natCast_nonneg n)), Int.toNat_natCast]

/-- When the incoming frame's `total_fragments` equals the incremented
counter and both the base64 decode and the JSON parse of the joined slots
succeed, `handleFrag` emits the decoded event, deletes the record, and lets
no exception escape (a handler throw is caught by the inner catch). -/
theorem handleFrag_complete {κ : Type} (behav : κ → Json → Bool) (c : Conn κ)
    (mid fidx ftot dataField : Option Json) (rec0 : FragRec) (bytes : List Nat) (e : Json)
    (htot : ftot = some (Json.num ((rec0.receivedFragments + 1 : Nat) : Int)))
    (hdec : b64Decode (joinFrags (setSlot rec0.fragments fidx (joinArg dataField)))
      = some bytes)
    (hpar : jsonParse (bytes.map Char.ofNat) = some e) :
    (handleFrag behav c mid fidx ftot dataField rec0).emitted = [e] ∧
    (handleFrag behav c mid fidx ftot dataField rec0).conn
      = { c with
          messageFragments := alErase (alSet c.messageFragments mid
            (FragRec.mk (setSlot rec0.fragments fidx (joinArg dataField)) rec0.totalFragments
              (rec0.receivedFragments + 1))) mid } ∧
    (handleFrag behav c mid fidx ftot dataField rec0).threw = false := by
  simp only [handleFrag]
  rw [if_pos htot, hdec]
  simp only []
  rw [hpar]
  exact ⟨rfl, rfl, rfl⟩

/-- The reassembly loop invariant: with the fragments in `done` already
stored and those in `idxs` still to come (together a permutation of
`0..n-1`), ingesting the remaining frames emits exactly the decoded event
and restores the fragment map. -/
theorem c1_loop {κ : Type} (behav : κ → Json → Bool) (c : Conn κ) (id : String) (e : Json)
    (slices : List String)
    (hfresh : alGet c.messageFragments (some (Json.str id)) = none)
    (hjoin : (slices.map String.toList).flatten
      = b64Encode ((jsonSerialize e).map Char.toNat))
    (hbytes : ∀ b ∈ (jsonSerialize e).map Char.toNat, b < 256) :
    ∀ (idxs done : List Nat) (acc : Ingest κ),
      idxs ≠ [] →
      (done ++ idxs).Perm (List.range slices.length) →
      acc.conn = ⟨c.eventListeners, c.anyEventListeners,
        if done.isEmpty then c.messageFragments
        else c.messageFragments ++ [(some (Json.str id), recAfter slices done)]⟩ →
      (List.foldl (ingestFrame behav) acc
          (idxs.map (fun k => mkFrame id slices.length k (slices.getD k "")))).emitted
        = acc.emitted ++ [e] ∧
      (List.foldl (ingestFrame behav) acc
          (idxs.map (fun k =>
            mkFrame id slices.length k (slices.getD k "")))).conn.messageFragments
        = c.messageFragments := by
  intro idxs
  induction idxs with
  | nil => intro done acc hne _ _; exact absurd rfl hne
  | cons i rest ih =>
      intro done acc _ hperm hconn
      have hnd : (done ++ i :: rest).Nodup := hperm.nodup_iff.mpr (List.nodup_range _)
      have hi : i < slices.length :=
        List.mem_range.mp (hperm.mem_iff.mp (by simp))
      have hinotdone : i ∉ done :=
        fun h => (List.disjoint_of_nodup_append hnd) h (List.mem_cons_self i rest)
      have hlen : done.length + (i :: rest).length = slices.length := by
        have h := hperm.length_eq
        rwa [List.length_append, List.length_range] at h
      have hkey : ∀ R : FragRec, alSet acc.conn.messageFragments (some (Json.str id)) R
          = c.messageFragments ++ [(some (Json.str id), R)] := by
        intro R
        rw [hconn]
        cases done with
        | nil =>
            show alSet c.messageFragments (some (Json.str id)) R = _
            exact alSet_fresh _ _ _ hfresh
        | cons d ds =>
            show alSet (c.messageFragments
                ++ [(some (Json.str id), recAfter slices (d :: ds))]) (some (Json.str id)) R = _
            exact alSet_append_last _ _ _ _ hfresh
      have hhp : handleParsed behav acc.conn (mkFrame id slices.length i (slices.getD i ""))
          = handleFrag behav acc.conn (some (Json.str id)) (some (Json.num (i : Int)))
              (some (Json.num (slices.length : Int))) (some (Json.str (slices.getD i "")))
              (recAfter slices done) := by
        rw [handleParsed_mkFrame]
        cases done with
        | nil =>
            rw [handlePartial_mkFrame_fresh behav acc.conn id slices.length i (slices.getD i "")
              (by rw [hconn]; exact hfresh)]
            rw [show (⟨List.replicate slices.length "", slices.length, 0⟩ : FragRec)
                = recAfter slices [] from by simp [recAfter, slotsAfter_nil]]
        | cons d ds =>
            exact handlePartial_mkFrame_present behav acc.conn id slices.length i _ _
              (by rw [hconn]; exact alGet_append_last _ _ _ hfresh)
      have hset : setSlot (recAfter slices done).fragments (some (Json.num (i : Int)))
            (joinArg (some (Json.str (slices.getD i ""))))
          = slotsAfter slices (done ++ [i]) := by
        rw [joinArg_str]
        rw [show (recAfter slices done).fragments = slotsAfter slices done from rfl]
        rw [setSlot_inRange (slotsAfter slices done) i (slices.getD i "")
          (by rw [slotsAfter_length]; exact hi)]
        exact slotsAfter_set slices done i hi hinotdone
      have hrec1 : FragRec.mk (setSlot (recAfter slices done).fragments
            (some (Json.num (i : Int))) (joinArg (some (Json.str (slices.getD i "")))))
            (recAfter slices done).totalFragments ((recAfter slices done).receivedFragments + 1)
          = recAfter slices (done ++ [i]) := by
        rw [hset]
        show FragRec.mk (slotsAfter slices (done ++ [i])) slices.length (done.length + 1)
          = recAfter slices (done ++ [i])
        simp [recAfter]
      cases rest with
      | nil =>
          have hlast : done.length + 1 = slices.length := by simpa using hlen
          have hall : ∀ j < slices.length, j ∈ done ++ [i] := fun j hj =>
            hperm.mem_iff.mpr (List.mem_range.mpr hj)
          have hdec : b64Decode (joinFrags (setSlot (recAfter slices done).fragments
                (some (Json.num (i : Int))) (joinArg (some (Json.str (slices.getD i ""))))))
              = some ((jsonSerialize e).map Char.toNat) := by
            rw [hset, show joinFrags (slotsAfter slices (done ++ [i]))
                = (slices.map String.toList).flatten from by
              rw [slotsAfter_full slices (done ++ [i]) hall]; rfl]
            rw [hjoin]
            exact b64_roundtrip _ hbytes
          have hpar : jsonParse (((jsonSerialize e).map Char.toNat).map Char.ofNat)
              = some e := by
            rw [List.map_map]
            rw [show (jsonSerialize e).map (Char.ofNat ∘ Char.toNat) = jsonSerialize e from
              (List.map_congr_left (fun ch _ => Char.ofNat_toNat ch)).trans
                (List.map_id _)]
            exact jsonParse_serialize e
          have htot : (some (Json.num (slices.length : Int)) : Option Json)
              = some (Json.num (((recAfter slices done).receivedFragments + 1 : Nat) : Int)) := by
            show (some (Json.num (slices.length : Int)) : Option Json)
              = some (Json.num ((done.length + 1 : Nat) : Int))
            rw [hlast]
          obtain ⟨hem, hcn, _⟩ := handleFrag_complete behav acc.conn (some (Json.str id))
            (some (Json.num (i : Int))) (some (Json.num (slices.length : Int)))
            (some (Json.str (slices.getD i ""))) (recAfter slices done)
            ((jsonSerialize e).map Char.toNat) e htot hdec hpar
          rw [show ([i] : List Nat).map (fun k => mkFrame id slices.length k (slices.getD k ""))
              = [mkFrame id slices.length i (slices.getD i "")] from rfl]
          rw [List.foldl_cons, List.foldl_nil]
          constructor
          · show acc.emitted ++ (handleParsed behav acc.conn
                (mkFrame id slices.length i (slices.getD i ""))).emitted
              = acc.emitted ++ [e]
            rw [hhp, hem]
          · show (handleParsed behav acc.conn
                (mkFrame id slices.length i (slices.getD i ""))).conn.messageFragments
              = c.messageFragments
            rw [hhp, hcn]
            show alErase (alSet acc.conn.messageFragments (some (Json.str id))
              (FragRec.mk _ _ _)) (some (Json.str id)) = c.messageFragments
            rw [hkey]
            exact alErase_append_last _ _ _ hfresh
      | cons j rest2 =>
          have hlt : done.length + 1 < slices.length := by
            rw [List.length_cons, List.length_cons] at hlen
            omega
          have hmis : (some (Json.num (slices.length : Int)) : Option Json)
              ≠ some (Json.num (((recAfter slices done).receivedFragments + 1 : Nat) : Int)) := by
            show (some (Json.num (slices.length : Int)) : Option Json)
              ≠ some (Json.num ((done.length + 1 : Nat) : Int))
            intro hEq
            have h1 : (slices.length : Int) = ((done.length + 1 : Nat) : Int) := by
              injection hEq with h2
              injection h2
            have h3 : slices.length = done.length + 1 := by exact_mod_cast h1
            omega
          have hr := handleFrag_mismatch behav acc.conn (some (Json.str id))
            (some (Json.num (i : Int))) (some (Json.num (slices.length : Int)))
            (some (Json.str (slices.getD i ""))) (recAfter slices done) hmis
          have hconn2 : (ingestFrame behav acc
              (mkFrame id slices.length i (slices.getD i ""))).conn
              = ⟨c.eventListeners, c.anyEventListeners,
                if (done ++ [i]).isEmpty then c.messageFragments
                else c.messageFragments
                  ++ [(some (Json.str id), recAfter slices (done ++ [i]))]⟩ := by
            show (handleParsed behav acc.conn
                (mkFrame id slices.length i (slices.getD i ""))).conn = _
            rw [hhp, hr]
            show { acc.conn with
                messageFragments := alSet acc.conn.messageFragments (some (Json.str id))
                  (FragRec.mk (setSlot (recAfter slices done).fragments
                    (some (Json.num (i : Int))) (joinArg (some (Json.str (slices.getD i "")))))
                    (recAfter slices done).totalFragments
                    ((recAfter slices done).receivedFragments + 1)) } = _
            rw [hrec1, hkey, hconn]
            rw [show (done ++ [i]).isEmpty = false from by simp]
            rfl
          have hemit2 : (ingestFrame behav acc
              (mkFrame id slices.length i (slices.getD i ""))).emitted = acc.emitted := by
            show acc.emitted ++ (handleParsed behav acc.conn
              (mkFrame id slices.length i (slices.getD i ""))).emitted = acc.emitted
            rw [hhp, hr]
            exact List.append_nil _
          rw [List.map_cons, List.foldl_cons]
          obtain ⟨ih1, ih2⟩ := ih (done ++ [i])
            (ingestFrame behav acc (mkFrame id slices.length i (slices.getD i "")))
            (by simp) (by rw [List.append_assoc]; exact hperm) hconn2
          exact ⟨by rw [ih1, hemit2], ih2⟩

/-- **C1** — For every application event `e`, every split of
`base64(JSON(e))` into slices, and every permutation in which the
`partial_message` frames (same id, each `fragment_index` delivered exactly
once, `total_fragments` the slice count) are ingested, the Fragment
Reassembler emits exactly one decoded event, that event equals `e`, and the
assembly record for the id is deleted after emission. -/
theorem c1_fragment_roundtrip {κ : Type} (behav : κ → Json → Bool) (c : Conn κ)
    (id : String) (e : Json) (slices : List String) (idxs : List Nat)
    (hfresh : alGet c.messageFragments (some (Json.str id)) = none)
    (hjoin : (slices.map String.toList).flatten
      = b64Encode ((jsonSerialize e).map Char.toNat))
    (hascii : ∀ ch ∈ jsonSerialize e, ch.toNat < 256)
    (hperm : idxs.Perm (List.range slices.length))
    (hn : slices ≠ []) :
    (ingestList behav c (idxs.map (fun k =>
        mkFrame id slices.length k (slices.getD k "")))).emitted = [e] ∧
    (ingestList behav c (idxs.map (fun k =>
        mkFrame id slices.length k (slices.getD k "")))).conn.messageFragments
      = c.messageFragments := by
  have hbytes : ∀ b ∈ (jsonSerialize e).map Char.toNat, b < 256 := by
    intro b hb
    rw [List.mem_map] at hb
    obtain ⟨ch, hch, hbe⟩ := hb
    exact hbe ▸ hascii ch hch
  have hne : idxs ≠ [] := by
    intro h
    subst h
    have h2 := hperm.length_eq
    rw [List.length_nil, List.length_range] at h2
    exact hn (List.eq_nil_of_length_eq_zero h2.symm)
  obtain ⟨h1, h2⟩ := c1_loop behav c id e slices hfresh hjoin hbytes idxs [] ⟨c, [], [], [], false⟩
    hne (by rw [List.nil_append]; exact hperm) rfl
  constructor
  · show (List.foldl (ingestFrame behav) ⟨c, [], [], [], false⟩ (idxs.map (fun k =>
        mkFrame id slices.length k (slices.getD k "")))).emitted = [e]
    rw [h1]
    rfl
  · exact h2

/-- `c1_fragment_roundtrip` at a concrete input: `{"a":1}` is base64-encoded
as "eyJhIjoxfQ==", split into two slices, delivered in reverse order, and
comes back out as the one decoded event with the record deleted. -/
theorem c1_fragment_roundtrip_witness :
    ((["eyJh", "IjoxfQ=="] : List String).map String.toList).flatten
        = b64Encode ((jsonSerialize (Json.obj [("a", Json.num 1)])).map Char.toNat) ∧
    ([1, 0] : List Nat).Perm (List.range (["eyJh", "IjoxfQ=="] : List String).length) ∧
    (ingestList (fun (_ : Nat) _ => false) ⟨[], [], []⟩ (([1, 0] : List Nat).map (fun k =>
        mkFrame "m" (["eyJh", "IjoxfQ=="] : List String).length k
          ((["eyJh", "IjoxfQ=="] : List String).getD k "")))).emitted
      = [Json.obj [("a", Json.num 1)]] :=
  ⟨by decide, by decide,
    (c1_fragment_roundtrip (fun (_ : Nat) _ => false) ⟨[], [], []⟩ "m"
      (Json.obj [("a", Json.num 1)]) ["eyJh", "IjoxfQ=="] [1, 0] rfl (by decide) (by decide)
      (by decide) (by decide)).1⟩
